import Mathlib

set_option maxHeartbeats 1000000
set_option maxRecDepth 4000

/-!
Verification development for the just-bash repository: an in-process
emulation of a POSIX-style shell over a virtual filesystem.  The find
expression engine and the shell evaluator are modelled from the
specification (their implementation files are not part of the visible
sources; only their tests are), while the stat command is embedded from
its visible source.
-/

namespace JB

/-- Result of executing a command: captured stdout, stderr and exit code. -/
structure ExecResult where
  stdout : String
  stderr : String
  exitCode : Nat
deriving DecidableEq

/-- Boolean substring test: does the haystack contain the needle? -/
def strIn (needle hay : String) : Bool := decide (needle.data <:+: hay.data)

/-- Concatenation of a list of strings, recursively. -/
def strConcat : List String → String
  | [] => ""
  | s :: r => s ++ strConcat r

/-- Modelled from the spec: the virtual file tree consumed through the
IFileSystem capability.  A node is a file with content, or a directory
given as a spine of named children: dnil is the empty directory and
dcons is a directory whose first child is named nm.  The rest field of a
dcons is the directory holding the remaining children. -/
inductive FNode where
  | file (content : String)
  | dnil
  | dcons (nm : String) (child : FNode) (rest : FNode)
deriving DecidableEq

/-- A node is a directory when it is not a file. -/
def isDir : FNode → Bool
  | .file _ => false
  | _ => true

/-- Size of a tree, used to bound traversal fuel. -/
def sizeF : FNode → Nat
  | .file _ => 1
  | .dnil => 1
  | .dcons _ c r => 1 + sizeF c + sizeF r

/-- Look a basename up in a directory spine. -/
def childLookup (k : String) : FNode → Option FNode
  | .dcons nm c r => if nm = k then some c else childLookup k r
  | _ => none

/-- Modelled from the spec: stat on the virtual filesystem, resolving a
component path from a node; returns the node found, none when missing. -/
def statAt : List String → FNode → Option FNode
  | [], nd => some nd
  | k :: ks, nd =>
    match childLookup k nd with
    | some c => statAt ks c
    | none => none

/-- Does the first character of the string equal the given character? -/
def headIs (c : Char) (s : String) : Bool :=
  match s.data with
  | d :: _ => d = c
  | [] => false

/-- Split a character list on the slash character. -/
def splitSl : List Char → List Char → List String
  | [], cur => [String.mk cur.reverse]
  | c :: rest, cur => if c = '/' then String.mk cur.reverse :: splitSl rest [] else splitSl rest (c :: cur)

/-- Normalize raw path segments: drop empty and dot segments, let dotdot
pop the previous segment.  Modelled from the spec: resolvePath is pure
string normalization. -/
def normSegs (segs : List String) (acc : List String) : List String :=
  match segs with
  | [] => acc
  | s :: rest =>
    if s = "" ∨ s = "." then normSegs rest acc
    else if s = ".." then normSegs rest acc.dropLast
    else normSegs rest (acc ++ [s])

/-- Modelled from the spec: resolve a path argument against the current
working directory into a normalized component list. -/
def resolveComps (cwd p : String) : List String :=
  if headIs '/' p then normSegs (splitSl p.data []) []
  else normSegs (splitSl cwd.data [] ++ splitSl p.data []) []

/-- Parse a nonempty all-digit character list as a number. -/
def digitsNat : List Char → Nat → Option Nat
  | [], acc => some acc
  | c :: rest, acc => if c.isDigit then digitsNat rest (acc * 10 + (c.toNat - 48)) else none

/-- Numeric value of a string, none when not a nonempty digit run. -/
def natOf (s : String) : Option Nat :=
  match s.data with
  | [] => none
  | cs => digitsNat cs 0

/-- Lexicographic comparison of character lists by code point. -/
def lexLt : List Char → List Char → Bool
  | [], [] => false
  | [], _ :: _ => true
  | _ :: _, [] => false
  | a :: as, b :: bs => decide (a.toNat < b.toNat) || ((a == b) && lexLt as bs)

/-- Lexicographic order on strings, used to sort directory entries. -/
def strLt (a b : String) : Bool := lexLt a.data b.data

/-- Membership of a character in a glob bracket set, supporting ranges. -/
def setMatch : List Char → Char → Bool
  | a :: '-' :: b :: rest, c => (decide (a.toNat ≤ c.toNat) && decide (c.toNat ≤ b.toNat)) || setMatch rest c
  | a :: rest, c => (a == c) || setMatch rest c
  | [], _ => false

/-- Modelled from the spec: glob matching anchored end to end, where star
matches any run of characters, question mark exactly one, and a bracket
set one character of the set with ranges and leading negation.  The fuel
argument strictly exceeds the total length so it never runs out. -/
def globGo : Nat → List Char → List Char → Bool
  | 0, _, _ => false
  | _ + 1, [], s => s.isEmpty
  | f + 1, '*' :: ps, s =>
    globGo f ps s ||
      (match s with
       | [] => false
       | _ :: s2 => globGo f ('*' :: ps) s2)
  | f + 1, '?' :: ps, s =>
    (match s with
     | [] => false
     | _ :: s2 => globGo f ps s2)
  | f + 1, '[' :: ps, s =>
    (match s with
     | [] => false
     | c :: s2 =>
       let (neg, ps1) :=
         match ps with
         | '!' :: t => (true, t)
         | '^' :: t => (true, t)
         | _ => (false, ps)
       let setCs := ps1.takeWhile (fun x => !(x == ']'))
       match ps1.dropWhile (fun x => !(x == ']')) with
       | ']' :: after => (setMatch setCs c != neg) && globGo f after s2
       | _ => (('[' : Char) == c) && globGo f ps s2)
  | f + 1, p :: ps, s =>
    (match s with
     | [] => false
     | c :: s2 => (p == c) && globGo f ps s2)

/-- Glob matching on strings, with sufficient fuel. -/
def globMatches (g s : String) : Bool :=
  globGo (g.length + s.length + 1) g.data s.data

/-- Modelled from the spec: the find AST, with True as the implicit root
when no predicates are given. -/
inductive FindExpr where
  | tru
  | name (g : String)
  | typ (isFile : Bool)
  | maxdepth (n : Nat)
  | not (a : FindExpr)
  | and (a b : FindExpr)
  | or (a b : FindExpr)
  | exec (cn : String) (cargs : List String)
deriving DecidableEq

/-- Does the expression contain an exec action? -/
def hasExec : FindExpr → Bool
  | .exec _ _ => true
  | .not a => hasExec a
  | .and a b => hasExec a || hasExec b
  | .or a b => hasExec a || hasExec b
  | _ => false

/-- Minimum of two optional depth caps. -/
def optMin : Option Nat → Option Nat → Option Nat
  | none, b => b
  | a, none => a
  | some x, some y => some (min x y)

/-- Collect the effective maxdepth cap of an expression. -/
def maxdOf : FindExpr → Option Nat
  | .maxdepth n => some n
  | .not a => maxdOf a
  | .and a b => optMin (maxdOf a) (maxdOf b)
  | .or a b => optMin (maxdOf a) (maxdOf b)
  | _ => none

/-- Does the cap allow descending from a node at the given depth? -/
def capLT : Option Nat → Nat → Bool
  | none, _ => true
  | some m, d => decide (d < m)

/-- Modelled from the spec: the find expression grammar as one
recursive-descent routine over a token list.  The mode selects the
grammar level: 0 starts an or-expression, 1 is the or-loop with the left
operand accumulated, 2 starts an and-expression, 3 is the and-loop with
implicit conjunction on adjacency, 4 parses negations, any other mode a
primary.  Precedence: negation over and over or, parentheses override. -/
def pF : Nat → Nat → FindExpr → List String → Except String (FindExpr × List String)
  | 0, _, _, _ => .error "invalid expression"
  | f + 1, 0, _, toks =>
    match pF f 2 .tru toks with
    | .ok (e, rest) => pF f 1 e rest
    | .error m => .error m
  | f + 1, 1, acc, toks =>
    match toks with
    | t :: rest =>
      if t = "-o" ∨ t = "-or" then
        match pF f 2 .tru rest with
        | .ok (e, rest2) => pF f 1 (.or acc e) rest2
        | .error m => .error m
      else .ok (acc, toks)
    | [] => .ok (acc, toks)
  | f + 1, 2, _, toks =>
    match pF f 4 .tru toks with
    | .ok (e, rest) => pF f 3 e rest
    | .error m => .error m
  | f + 1, 3, acc, toks =>
    match toks with
    | [] => .ok (acc, toks)
    | t :: rest =>
      if t = ")" ∨ t = "-o" ∨ t = "-or" then .ok (acc, toks)
      else if t = "-a" ∨ t = "-and" then
        match pF f 4 .tru rest with
        | .ok (e, rest2) => pF f 3 (.and acc e) rest2
        | .error m => .error m
      else
        match pF f 4 .tru toks with
        | .ok (e, rest2) => pF f 3 (.and acc e) rest2
        | .error m => .error m
  | f + 1, 4, _, toks =>
    match toks with
    | t :: rest =>
      if t = "!" ∨ t = "-not" then
        match pF f 4 .tru rest with
        | .ok (e, rest2) => .ok (.not e, rest2)
        | .error m => .error m
      else pF f 5 .tru toks
    | [] => pF f 5 .tru toks
  | f + 1, _, _, toks =>
    match toks with
    | [] => .error "invalid expression"
    | "(" :: rest =>
      (match pF f 0 .tru rest with
       | .ok (e, rest2) =>
         match rest2 with
         | ")" :: rest3 => .ok (e, rest3)
         | _ => .error "invalid expression"
       | .error m => .error m)
    | "-name" :: g :: rest => .ok (.name g, rest)
    | ["-name"] => .error "missing argument to -name"
    | "-type" :: t :: rest =>
      if t = "f" then .ok (.typ true, rest)
      else if t = "d" then .ok (.typ false, rest)
      else .error ("Unknown argument to -type: " ++ t)
    | ["-type"] => .error "missing argument to -type"
    | "-maxdepth" :: n :: rest =>
      (match natOf n with
       | some k => .ok (.maxdepth k, rest)
       | none => .error ("invalid argument to -maxdepth: " ++ n))
    | ["-maxdepth"] => .error "missing argument to -maxdepth"
    | "-exec" :: rest =>
      (let cmdToks := rest.takeWhile (fun t => !(t == ";"))
       match rest.dropWhile (fun t => !(t == ";")) with
       | ";" :: rest2 =>
         match cmdToks with
         | cn :: cargs => .ok (.exec cn cargs, rest2)
         | [] => .error "missing argument to -exec"
       | _ => .error "missing argument to -exec")
    | t :: _ => .error ("unknown predicate \x27" ++ t ++ "\x27")

/-- Modelled from the spec: parse a find expression token list, with the
implicit True root when empty. -/
def parseFind (toks : List String) : Except String FindExpr :=
  match toks with
  | [] => .ok .tru
  | _ =>
    match pF (4 * toks.length + 8) 0 .tru toks with
    | .ok (e, []) => .ok e
    | .ok (_, _) => .error "invalid expression"
    | .error m => .error m

/-- Modelled from the spec: the cat utility over the virtual filesystem,
used through the registry by exec actions; returns stdout and stderr. -/
def catRunF (fs : FNode) (cwd : String) (args : List String) : String × String :=
  args.foldl
    (fun acc a =>
      match statAt (resolveComps cwd a) fs with
      | some (.file c) => (acc.1 ++ c, acc.2)
      | some _ => (acc.1, acc.2 ++ "cat: " ++ a ++ ": Is a directory\n")
      | none => (acc.1, acc.2 ++ "cat: " ++ a ++ ": No such file or directory\n"))
    ("", "")

/-- Substitute the brace-pair placeholder token with the current path. -/
def substTok (path t : String) : String := if t = "\x7b\x7d" then path else t

/-- Modelled from the spec: dispatch of an exec action command through the
registry; the model registry carries the cat utility. -/
def execRun (fs : FNode) (cwd : String) (cn : String) (cargs : List String) : String × String :=
  if cn = "cat" then catRunF fs cwd cargs
  else ("", cn ++ ": command not found\n")

/-- Modelled from the spec: evaluate a find expression at a visited node,
with short-circuit and over or, name matching against the basename only,
and exec substituting the placeholder then running the command; the
result is the truth value with accumulated stdout and stderr of execs. -/
def evalExpr (fs : FNode) (cwd : String) : FindExpr → String → String → FNode → Bool × String × String
  | .tru, _, _, _ => (true, "", "")
  | .name g, nm, _, _ => (globMatches g nm, "", "")
  | .typ isFile, _, _, nd => (if isFile then !isDir nd else isDir nd, "", "")
  | .maxdepth _, _, _, _ => (true, "", "")
  | .not a, nm, d, nd =>
    let r := evalExpr fs cwd a nm d nd
    (!r.1, r.2)
  | .and a b, nm, d, nd =>
    let r1 := evalExpr fs cwd a nm d nd
    if r1.1 then
      let r2 := evalExpr fs cwd b nm d nd
      (r2.1, r1.2.1 ++ r2.2.1, r1.2.2 ++ r2.2.2)
    else (false, r1.2)
  | .or a b, nm, d, nd =>
    let r1 := evalExpr fs cwd a nm d nd
    if r1.1 then (true, r1.2)
    else
      let r2 := evalExpr fs cwd b nm d nd
      (r2.1, r1.2.1 ++ r2.2.1, r1.2.2 ++ r2.2.2)
  | .exec cn cargs, _, d, _ =>
    let r := execRun fs cwd cn (cargs.map (substTok d))
    (true, r)

/-- Truth value of an expression at a node. -/
def truthOf (fs : FNode) (cwd : String) (e : FindExpr) (nm d : String) (nd : FNode) : Bool :=
  (evalExpr fs cwd e nm d nd).1

/-- Insert a named child into a directory spine, keeping name order. -/
def insSp (nm : String) (c : FNode) : FNode → FNode
  | .dcons nm2 c2 r => if strLt nm nm2 then .dcons nm c (.dcons nm2 c2 r) else .dcons nm2 c2 (insSp nm c r)
  | x => .dcons nm c x

/-- Modelled from the spec: find sorts the basenames returned by the
filesystem list call; insertion sort of a directory spine by name. -/
def sortSpine : FNode → FNode
  | .dcons nm c r => insSp nm c (sortSpine r)
  | x => x

/-- Is the name below the first name of the spine? -/
def spineLb (nm : String) : FNode → Bool
  | .dcons nm2 _ _ => strLt nm nm2
  | _ => true

/-- Is every directory spine of the tree strictly sorted by name?  Trees
built from a files map are; such trees are the canonical filesystems. -/
def sortedT : FNode → Bool
  | .dcons nm c r => sortedT c && sortedT r && spineLb nm r
  | _ => true

/-- Output accumulator of a find run: stdout, stderr and exit code. -/
structure OSt where
  out : String
  err : String
  ec : Nat
deriving DecidableEq

/-- A pending traversal step: visit one node, or walk a children spine. -/
inductive VTask where
  | vnode (depth : Nat) (disp nm : String) (nd : FNode)
  | vkids (depth : Nat) (par : String) (sp : FNode)

/-- Modelled from the spec: pre-order depth-first traversal.  At each
visited node the expression is evaluated; exec output is appended, and
when it yields truth and the expression holds no exec action the path is
emitted followed by a newline.  Children are visited in sorted order,
and descent stops at the maxdepth cap.  Fuel bounds the recursion and is
chosen large enough by the caller. -/
def visit (fs : FNode) (cwd : String) (e : FindExpr) (hasEx : Bool) (cap : Option Nat) : Nat → VTask → OSt → OSt
  | 0, _, st => st
  | f + 1, .vnode depth disp nm nd, st =>
    let r := evalExpr fs cwd e nm disp nd
    let st1 : OSt :=
      { st with
        out := st.out ++ r.2.1 ++ (if r.1 && !hasEx then disp ++ "\n" else ""),
        err := st.err ++ r.2.2 }
    if isDir nd && capLT cap depth then visit fs cwd e hasEx cap f (.vkids (depth + 1) disp (sortSpine nd)) st1
    else st1
  | f + 1, .vkids depth par sp, st =>
    match sp with
    | .dcons nm c r =>
      visit fs cwd e hasEx cap f (.vkids depth par r)
        (visit fs cwd e hasEx cap f (.vnode depth (par ++ "/" ++ nm) nm c) st)
    | _ => st

/-- Basename the traversal uses for a path argument root. -/
def rootBase (comps : List String) : String := comps.getLast?.getD "/"

/-- Modelled from the spec: run find over one path argument; a missing
path emits the diagnostic on stderr and raises the exit code to one, an
existing path is traversed. -/
def findPathRun (fs : FNode) (cwd : String) (e : FindExpr) (hasEx : Bool) (cap : Option Nat) (p : String) (st : OSt) : OSt :=
  let comps := resolveComps cwd p
  match statAt comps fs with
  | none => { st with err := st.err ++ "find: " ++ p ++ ": No such file or directory\n", ec := max st.ec 1 }
  | some nd => visit fs cwd e hasEx cap (2 * sizeF nd + 2) (.vnode 0 p (rootBase comps) nd) st

/-- Is an argument a path argument rather than part of the expression? -/
def pathArg (p : String) : Bool := !headIs '-' p && !(p == "(") && !(p == "!")

/-- Split the argument list into leading path arguments and expression
tokens. -/
def takePaths : List String → List String × List String
  | [] => ([], [])
  | a :: rest =>
    if pathArg a then
      let r := takePaths rest
      (a :: r.1, r.2)
    else ([], a :: rest)

/-- Modelled from the spec: the help flag test used by utilities. -/
def helpIn (args : List String) : Bool := args.any (fun a => a == "--help")

/-- Help text of the find command. -/
def findHelpText : String :=
  "Usage: find [path...] [expression]\n  -name PATTERN\n  -type f|d\n  -maxdepth N\n  -exec CMD ... ;\n  -a -o ! ( )\n"

/-- Modelled from the spec: the find command body.  Help short-circuits;
otherwise leading path arguments are taken, the expression is parsed
with exit code one on a parse diagnostic, and each path is processed in
order, aggregating outputs and the maximum exit code. -/
def findCmd (fs : FNode) (cwd : String) (args : List String) : ExecResult :=
  if helpIn args then ⟨findHelpText, "", 0⟩
  else
    let pt := takePaths args
    let paths := if pt.1.isEmpty then ["."] else pt.1
    match parseFind pt.2 with
    | .error m => ⟨"", "find: " ++ m ++ "\n", 1⟩
    | .ok e =>
      let st := paths.foldl (fun st p => findPathRun fs cwd e (hasExec e) (maxdOf e) p st) ⟨"", "", 0⟩
      ⟨st.out, st.err, st.ec⟩

/-! The shell execution core, modelled from the spec: an AST of commands,
a shell state with execution-budget counters, and a fuel-indexed
evaluator.  Fuel exhaustion yields none; the budgets themselves abort
evaluation with a diagnostic, as the spec prescribes. -/

/-- Execution budget: maximal number of simple commands per exec call. -/
def maxCommands : Nat := 10000

/-- Execution budget: maximal nested function call depth. -/
def maxRecursionDepth : Nat := 100

/-- Execution budget: maximal iterations of one loop. -/
def maxLoopIterations : Nat := 10000

/-- Modelled from the spec: the shell AST subset exercised by the
execution-protection scenarios: simple commands, assignments, sequences,
conditionals, while and until loops, for loops over a word list, and
function definitions. -/
inductive Cmd where
  | skip
  | simple (nm : String) (args : List String)
  | assign (v : String) (w : String)
  | seq (a b : Cmd)
  | ifc (c t e : Cmd)
  | whileLoop (untilFlag : Bool) (c b : Cmd)
  | forLoop (v : String) (ws : List String) (b : Cmd)
  | fundecl (nm : String) (b : Cmd)
deriving DecidableEq

/-- Modelled from the spec: the shell state: variables, functions, the
filesystem, the working directory, output buffers, the last exit code,
and the budget counters for recursion depth, loop context and command
count. -/
structure ShSt where
  vars : List (String × String)
  funcs : List (String × Cmd)
  fs : FNode
  cwd : String
  out : String
  err : String
  last : Nat
  depth : Nat
  inLoop : Nat
  cmds : Nat
deriving DecidableEq

/-- Variable lookup; unset variables expand to the empty string. -/
def getVar (v : String) : List (String × String) → String
  | [] => ""
  | (k, x) :: r => if k = v then x else getVar v r

/-- Set a variable. -/
def setVar (v x : String) (vs : List (String × String)) : List (String × String) :=
  (v, x) :: vs

/-- Function lookup. -/
def lookupFn (nm : String) : List (String × Cmd) → Option Cmd
  | [] => none
  | (k, b) :: r => if k = nm then some b else lookupFn nm r

/-- Words joined by single spaces, as echo renders its arguments. -/
def strJoinSp : List String → String
  | [] => ""
  | [s] => s
  | s :: rest => s ++ " " ++ strJoinSp rest

/-- Modelled from the spec: word expansion restricted to what the
protection scenarios need: a dollar-name expands to the variable value,
and the arithmetic expansion of a name minus one decrements it. -/
def expandW (st : ShSt) (w : String) : String :=
  match w.data with
  | '$' :: '(' :: '(' :: rest =>
    (match rest.reverse with
     | ')' :: ')' :: '1' :: '-' :: varRev =>
       toString (((natOf (getVar (String.mk varRev.reverse) st.vars)).getD 0) - 1)
     | _ => w)
  | '$' :: rest => getVar (String.mk rest) st.vars
  | _ => w

/-- Modelled from the spec: the registry built-ins needed by the
scenarios: true, false, colon, echo, a numeric test, and cat over the
virtual filesystem; an unknown name is command-not-found, exit 127. -/
def runBuiltin (nm : String) (args : List String) (st : ShSt) : ShSt :=
  if nm = "true" ∨ nm = ":" then { st with last := 0 }
  else if nm = "false" then { st with last := 1 }
  else if nm = "echo" then { st with out := st.out ++ strJoinSp args ++ "\n", last := 0 }
  else if nm = "test" ∨ nm = "[" then
    let args2 := if nm = "[" then args.dropLast else args
    match args2 with
    | [a, op, b] =>
      if op = "-gt" then { st with last := if ((natOf a).getD 0) > ((natOf b).getD 0) then 0 else 1 }
      else { st with last := 1 }
    | [a] => { st with last := if a = "" then 1 else 0 }
    | _ => { st with last := 1 }
  else if nm = "cat" then
    let r := catRunF st.fs st.cwd args
    { st with out := st.out ++ r.1, err := st.err ++ r.2, last := if r.2 = "" then 0 else 1 }
  else { st with err := st.err ++ nm ++ ": command not found\n", last := 127 }

/-- The budget diagnostic for the command counter depends on context:
inside a loop it is the loop diagnostic. -/
def budgetMsg (st : ShSt) : String :=
  if st.inLoop > 0 then "too many iterations\n" else "too many commands\n"

/-- Result of evaluating a command: normal completion, or an aborted
evaluation after a budget was exceeded. -/
inductive EvRes where
  | ok (st : ShSt)
  | abort (st : ShSt)
deriving DecidableEq

/-- A pending evaluation step: run a command, or continue a while or for
loop carrying its iteration counter. -/
inductive STask where
  | run (c : Cmd)
  | loopW (untilFlag : Bool) (c b : Cmd) (i : Nat)
  | loopF (v : String) (b : Cmd) (ws : List String) (i : Nat)
deriving DecidableEq

/-- Modelled from the spec: the evaluator.  Each simple command checks
and increments the command counter; function calls check and maintain
the recursion depth and abort with the function name when exceeded;
loops carry a per-loop iteration counter and abort with the iteration
diagnostic when exceeded; fuel exhaustion yields none. -/
def evalSh : Nat → STask → ShSt → Option EvRes
  | 0, _, _ => none
  | f + 1, .run c, st =>
    match c with
    | .skip => some (.ok { st with last := 0 })
    | .assign v w => some (.ok { st with vars := setVar v (expandW st w) st.vars, last := 0 })
    | .fundecl nm b => some (.ok { st with funcs := (nm, b) :: st.funcs, last := 0 })
    | .seq a b =>
      (match evalSh f (.run a) st with
       | some (.ok s1) => evalSh f (.run b) s1
       | r => r)
    | .ifc cnd t e =>
      (match evalSh f (.run cnd) st with
       | some (.ok s1) => if s1.last = 0 then evalSh f (.run t) s1 else evalSh f (.run e) s1
       | r => r)
    | .whileLoop u cnd b =>
      (match evalSh f (.loopW u cnd b 0) { st with inLoop := st.inLoop + 1 } with
       | some (.ok s) => some (.ok { s with inLoop := st.inLoop })
       | r => r)
    | .forLoop v ws b =>
      (match evalSh f (.loopF v b ws 0) { st with inLoop := st.inLoop + 1 } with
       | some (.ok s) => some (.ok { s with inLoop := st.inLoop })
       | r => r)
    | .simple nm args =>
      if st.cmds ≥ maxCommands then
        some (.abort { st with err := st.err ++ budgetMsg st, last := 1 })
      else
        let st1 := { st with cmds := st.cmds + 1 }
        match lookupFn nm st.funcs with
        | some body =>
          if st1.depth ≥ maxRecursionDepth then
            some (.abort { st1 with err := st1.err ++ nm ++ ": maximum recursion depth exceeded\n", last := 1 })
          else
            (match evalSh f (.run body) { st1 with depth := st1.depth + 1 } with
             | some (.ok s) => some (.ok { s with depth := st1.depth })
             | r => r)
        | none => some (.ok (runBuiltin nm (args.map (expandW st)) st1))
  | f + 1, .loopW u cnd b i, st =>
    if i ≥ maxLoopIterations then
      some (.abort { st with err := st.err ++ "too many iterations\n", last := 1 })
    else
      match evalSh f (.run cnd) st with
      | some (.ok s1) =>
        if (if u then s1.last ≠ 0 else s1.last = 0) then
          match evalSh f (.run b) s1 with
          | some (.ok s2) => evalSh f (.loopW u cnd b (i + 1)) s2
          | r => r
        else some (.ok { s1 with last := 0 })
      | r => r
  | f + 1, .loopF v b ws i, st =>
    match ws with
    | [] => some (.ok { st with last := 0 })
    | w :: rest =>
      if i ≥ maxLoopIterations then
        some (.abort { st with err := st.err ++ "too many iterations\n", last := 1 })
      else
        match evalSh f (.run b) { st with vars := setVar v (expandW st w) st.vars } with
        | some (.ok s1) => evalSh f (.loopF v b rest (i + 1)) s1
        | r => r

/-- Modelled from the spec: construct a shell from initial files, working
directory and environment, with fresh budget counters. -/
def mkShell (fs : FNode) (cwd : String) (env : List (String × String)) : ShSt :=
  ⟨env, [], fs, cwd, "", "", 0, 0, 0, 0⟩

/-- Modelled from the spec: one top-level exec call: evaluate with the
given fuel and return the aggregated buffers; an abort yields exit code
one. -/
def evalExec (f : Nat) (c : Cmd) (st : ShSt) : Option ExecResult :=
  match evalSh f (.run c) st with
  | some (.ok s) => some ⟨s.out, s.err, s.last⟩
  | some (.abort s) => some ⟨s.out, s.err, 1⟩
  | none => none

/-- A script is budget-safe on a state when some fuel completes it
normally, with no budget abort. -/
def BudgetSafe (c : Cmd) (st : ShSt) : Prop :=
  ∃ f s, evalSh f (.run c) st = some (.ok s)

/-! The stat command, embedded from its source in the repository. -/

/-- Stat metadata as the filesystem capability reports it. -/
structure SInfo where
  size : Nat
  isDirectory : Bool
  mtimeIso : String
deriving DecidableEq

/-- Embedded from src: the argument loop of statCommand.execute.  A -c
consumes the following argument as the format when one exists; any other
argument starting with a dash is ignored; the rest are operand files. -/
def statParse : List String → Option String → Option String × List String
  | [], fmt => (fmt, [])
  | ["-c"], fmt => (fmt, [])
  | "-c" :: v :: rest2, _ => statParse rest2 (some v)
  | a :: rest, fmt =>
    if headIs '-' a then statParse rest fmt
    else
      let r := statParse rest fmt
      (r.1, a :: r.2)

/-- Embedded from src: the custom format substitution of stat. -/
def statFormat (fmt file : String) (info : SInfo) : String :=
  (((((((((fmt.replace "%n" file).replace "%N" ("\x27" ++ file ++ "\x27")).replace "%s" (toString info.size)).replace "%F" (if info.isDirectory then "directory" else "regular file")).replace "%a" "644").replace "%A" (if info.isDirectory then "drwxr-xr-x" else "-rw-r--r--")).replace "%u" "1000").replace "%U" "user").replace "%g" "1000").replace "%G" "group"

/-- Embedded from src: the default output of stat for one file. -/
def statDefault (file : String) (info : SInfo) : String :=
  "  File: " ++ file ++ "\n" ++
  "  Size: " ++ toString info.size ++ "\t\tBlocks: " ++ toString ((info.size + 511) / 512) ++ "\n" ++
  "Access: " ++ (if info.isDirectory then "(0755/drwxr-xr-x)" else "(0644/-rw-r--r--)") ++ "\n" ++
  "Modify: " ++ info.mtimeIso ++ "\n"

/-- Embedded from src: statCommand.execute.  The filesystem is passed as
a stat oracle from resolved absolute path to optional metadata, mirroring
ctx.fs; help short-circuits, an empty operand list is the missing
operand error, and each file is stated in order with per-file errors
accumulated. -/
def statExecute (statFn : String → Option SInfo) (resolve : String → String → String) (cwd : String) (args : List String) : ExecResult :=
  if helpIn args then ⟨"stat - display file or file system status\n", "", 0⟩
  else
    let parsed := statParse args none
    match parsed.2 with
    | [] => ⟨"", "stat: missing operand\n", 1⟩
    | files =>
      let r := files.foldl
        (fun acc file =>
          match statFn (resolve cwd file) with
          | some info =>
            (acc.1 ++
              (match parsed.1 with
               | some fmt => statFormat fmt file info ++ "\n"
               | none => statDefault file info),
             acc.2.1, acc.2.2)
          | none => (acc.1, acc.2.1 ++ "stat: cannot stat \x27" ++ file ++ "\x27: No such file or directory\n", true))
        ("", "", false)
      ⟨r.1, r.2.1, if r.2.2 then 1 else 0⟩

/-! Specification-level descriptions of the traversal, used to state the
claims: the records of the visited nodes in visiting order. -/

/-- A visited node: its component path relative to the path argument, its
displayed path, its basename and the node itself. -/
structure FRec where
  rel : List String
  disp : String
  name : String
  node : FNode
deriving DecidableEq

/-- The records of all proper descendants visited below a node, in
pre-order with the children of each directory in spine order; sp is the
spine of the parent directory, d the depth of its children, and descent
stops at the cap.  On sorted trees the spine order is the lexicographic
order of basenames. -/
def kidsRecs (cap : Option Nat) : Nat → List String → String → FNode → List FRec
  | d, relPre, par, .dcons nm c r =>
    ⟨relPre ++ [nm], par ++ "/" ++ nm, nm, c⟩
      :: ((if isDir c && capLT cap d then kidsRecs cap (d + 1) (relPre ++ [nm]) (par ++ "/" ++ nm) c else [])
          ++ kidsRecs cap d relPre par r)
  | _, _, _, _ => []

/-- The records of all nodes visited from a root node at a given depth. -/
def nodeRecsD (cap : Option Nat) (d : Nat) (disp nm : String) (nd : FNode) : List FRec :=
  ⟨[], disp, nm, nd⟩ :: (if isDir nd && capLT cap d then kidsRecs cap (d + 1) [] disp nd else [])

/-- The records visited for one path argument; empty when it is missing. -/
def pathRecs (fs : FNode) (cwd : String) (cap : Option Nat) (p : String) : List FRec :=
  match statAt (resolveComps cwd p) fs with
  | some nd => nodeRecsD cap 0 p (rootBase (resolveComps cwd p)) nd
  | none => []

/-- The contribution of one path argument to the find outputs, from an
empty accumulator. -/
def pathZ (fs : FNode) (cwd : String) (e : FindExpr) (p : String) : OSt :=
  findPathRun fs cwd e (hasExec e) (maxdOf e) p ⟨"", "", 0⟩

/-- The stderr line find emits for a missing path argument. -/
def pathFailLine (p : String) : String := "find: " ++ p ++ ": No such file or directory\n"

/-- The stdout a visited record contributes: its displayed path and a
newline when the expression holds there and contains no exec action. -/
def emitLine (fs : FNode) (cwd : String) (e : FindExpr) (hasEx : Bool) (rec : FRec) : String :=
  if truthOf fs cwd e rec.name rec.disp rec.node && !hasEx then rec.disp ++ "\n" else ""

/-- The stdout of the traversal below a directory spine: each child in
spine order contributes its line when the expression holds there, then
its own subtree when descent is allowed. -/
def emitK (fs : FNode) (cwd : String) (e : FindExpr) (hasEx : Bool) (cap : Option Nat) : Nat → String → FNode → String
  | d, par, .dcons nm c r =>
    (if truthOf fs cwd e nm (par ++ "/" ++ nm) c && !hasEx then par ++ "/" ++ nm ++ "\n" else "")
      ++ ((if isDir c && capLT cap d then emitK fs cwd e hasEx cap (d + 1) (par ++ "/" ++ nm) c else "")
          ++ emitK fs cwd e hasEx cap d par r)
  | _, _, _ => ""

/-- The stdout of the traversal from one root node. -/
def emitN (fs : FNode) (cwd : String) (e : FindExpr) (hasEx : Bool) (cap : Option Nat)
    (d : Nat) (disp nm : String) (nd : FNode) : String :=
  (if truthOf fs cwd e nm disp nd && !hasEx then disp ++ "\n" else "")
    ++ (if isDir nd && capLT cap d then emitK fs cwd e hasEx cap (d + 1) disp nd else "")

/-! Concrete programs and trees used by the scenario claims. -/

/-- The infinite while loop of the protection scenario. -/
def whileTrueEcho : Cmd := .whileLoop false (.simple "true" []) (.simple "echo" ["x"])

/-- The infinite until loop of the protection scenario. -/
def untilFalseEcho : Cmd := .whileLoop true (.simple "false" []) (.simple "echo" ["loop"])

/-- A function that calls itself unconditionally, then a call to it. -/
def recProg (nm : String) : Cmd := .seq (.fundecl nm (.simple nm [])) (.simple nm [])

/-- A self-recursive countdown that stops when the counter reaches zero. -/
def countdownBody : Cmd :=
  .ifc (.simple "test" ["$n", "-gt", "0"]) (.seq (.assign "n" "$((n-1))") (.simple "countdown" [])) .skip

/-- Define the countdown, seed the counter with five, call it. -/
def countdownProg : Cmd :=
  .seq (.fundecl "countdown" countdownBody) (.seq (.assign "n" "5") (.simple "countdown" []))

/-- The project tree of the find test suite. -/
def projFS : FNode :=
  .dcons "project"
    (.dcons "README.md" (.file "# Project")
      (.dcons "package.json" (.file "\x7b\x7d")
        (.dcons "src"
          (.dcons "index.ts" (.file "export \x7b\x7d")
            (.dcons "utils"
              (.dcons "format.ts" (.file "export function format() \x7b\x7d")
                (.dcons "helpers.ts" (.file "export function helper() \x7b\x7d") .dnil))
              .dnil))
          (.dcons "tests"
            (.dcons "index.test.ts" (.file "test") .dnil)
            (.dcons "tsconfig.json" (.file "\x7b\x7d") .dnil)))))
    .dnil

/-- The parsed form of the grouped exec expression of the test suite. -/
def exprC8 : FindExpr :=
  ((FindExpr.typ true).and ((FindExpr.name "*.md").or (FindExpr.name "*.json"))).and
    (.exec "cat" ["\x7b\x7d"])

/-! String lemmas. -/

theorem str_data_append (a b : String) : (a ++ b).data = a.data ++ b.data := rfl

theorem str_nil_append (s : String) : "" ++ s = s := rfl

theorem str_append_nil (s : String) : s ++ "" = s := by
  cases s with
  | mk d => show String.mk (d ++ []) = String.mk d; rw [List.append_nil]

theorem str_append_assoc (a b c : String) : a ++ b ++ c = a ++ (b ++ c) := by
  cases a with
  | mk x =>
    cases b with
    | mk y =>
      cases c with
      | mk z => show String.mk (x ++ y ++ z) = String.mk (x ++ (y ++ z)); rw [List.append_assoc]

theorem strConcat_append (l1 l2 : List String) : strConcat (l1 ++ l2) = strConcat l1 ++ strConcat l2 := by
  induction l1 with
  | nil => simp [strConcat, str_nil_append]
  | cons a r ih => simp [strConcat, ih, str_append_assoc]

theorem strConcat_all_nil {α : Type} (f : α → String) (l : List α) (h : ∀ x ∈ l, f x = "") :
    strConcat (l.map f) = "" := by
  induction l with
  | nil => rfl
  | cons a r ih =>
    simp only [List.map_cons, strConcat]
    rw [h a (by simp), ih (fun x hx => h x (by simp [hx])), str_nil_append]

theorem strIn_iff (n h : String) : strIn n h = true ↔ n.data <:+: h.data := by
  simp [strIn]

theorem strIn_pre (a b : String) : strIn a (a ++ b) = true := by
  rw [strIn_iff, str_data_append]
  exact (List.prefix_append a.data b.data).isInfix

theorem strIn_suf (a b : String) : strIn b (a ++ b) = true := by
  rw [strIn_iff, str_data_append]
  exact (List.suffix_append a.data b.data).isInfix

theorem strIn_append_left (n a h : String) (hh : strIn n h = true) : strIn n (a ++ h) = true := by
  rw [strIn_iff, str_data_append]
  exact ((strIn_iff n h).mp hh).trans (List.suffix_append a.data h.data).isInfix

/-! Lexicographic order lemmas. -/

theorem lexLt_trans : ∀ a b c : List Char, lexLt a b = true → lexLt b c = true → lexLt a c = true := by
  intro a
  induction a with
  | nil =>
    intro b c hab hbc
    cases b with
    | nil => exact absurd hab (by simp [lexLt])
    | cons y bs =>
      cases c with
      | nil => exact absurd hbc (by simp [lexLt])
      | cons z cs => simp [lexLt]
  | cons x as ih =>
    intro b c hab hbc
    cases b with
    | nil => exact absurd hab (by simp [lexLt])
    | cons y bs =>
      cases c with
      | nil => exact absurd hbc (by simp [lexLt])
      | cons z cs =>
        simp only [lexLt, Bool.or_eq_true, Bool.and_eq_true, decide_eq_true_eq, beq_iff_eq] at hab hbc ⊢
        rcases hab with h1 | ⟨h1, h1r⟩ <;> rcases hbc with h2 | ⟨h2, h2r⟩
        · exact Or.inl (Nat.lt_trans h1 h2)
        · exact Or.inl (h2 ▸ h1)
        · exact Or.inl (h1 ▸ h2)
        · exact Or.inr ⟨h1.trans h2, ih bs cs h1r h2r⟩

theorem lexLt_irrefl : ∀ a : List Char, lexLt a a = false := by
  intro a
  induction a with
  | nil => rfl
  | cons x as ih => simp [lexLt, ih]

theorem strLt_ne (a b : String) (h : strLt a b = true) : a ≠ b := by
  intro hab
  rw [hab] at h
  rw [strLt, lexLt_irrefl] at h
  exact absurd h (by simp)

theorem strLt_trans (a b c : String) (h1 : strLt a b = true) (h2 : strLt b c = true) : strLt a c = true :=
  lexLt_trans a.data b.data c.data h1 h2

/-! Basic facts on the file tree model. -/

theorem sizeF_pos (nd : FNode) : 1 ≤ sizeF nd := by
  cases nd <;> simp [sizeF] <;> omega


theorem sortedT_dcons (nm : String) (c r : FNode) (h : sortedT (.dcons nm c r) = true) :
    sortedT c = true ∧ sortedT r = true ∧ spineLb nm r = true := by
  rw [sortedT] at h
  simp only [Bool.and_eq_true] at h
  exact ⟨h.1.1, h.1.2, h.2⟩

theorem sortSpine_id : ∀ nd : FNode, sortedT nd = true → sortSpine nd = nd := by
  intro nd
  induction nd with
  | file c => intro _; rfl
  | dnil => intro _; rfl
  | dcons nm c r ihc ihr =>
    intro h
    obtain ⟨hc, hr, hlb⟩ := sortedT_dcons nm c r h
    rw [sortSpine, ihr hr]
    cases r with
    | file rc => rfl
    | dnil => rfl
    | dcons nm2 c2 r2 =>
      rw [spineLb] at hlb
      rw [insSp, if_pos hlb]

theorem childLookup_sorted : ∀ nd : FNode, sortedT nd = true →
    ∀ k c, childLookup k nd = some c → sortedT c = true := by
  intro nd
  induction nd with
  | file fc => intro _ k c h; exact absurd h (by simp [childLookup])
  | dnil => intro _ k c h; exact absurd h (by simp [childLookup])
  | dcons nm ch r ihc ihr =>
    intro hs k c h
    obtain ⟨hsc, hsr, _⟩ := sortedT_dcons nm ch r hs
    rw [childLookup] at h
    by_cases hk : nm = k
    · rw [if_pos hk] at h
      cases h
      exact hsc
    · rw [if_neg hk] at h
      exact ihr hsr k c h

theorem statAt_sorted : ∀ comps (fs : FNode) nd, sortedT fs = true →
    statAt comps fs = some nd → sortedT nd = true := by
  intro comps
  induction comps with
  | nil =>
    intro fs nd hs h
    rw [statAt] at h
    cases h
    exact hs
  | cons k ks ih =>
    intro fs nd hs h
    rw [statAt] at h
    cases hc : childLookup k fs with
    | none => rw [hc] at h; exact absurd h (by simp)
    | some c =>
      rw [hc] at h
      exact ih c nd (childLookup_sorted fs hs k c hc) h

theorem statAt_append : ∀ (a b : List String) (nd : FNode),
    statAt (a ++ b) nd = (statAt a nd).bind (statAt b) := by
  intro a
  induction a with
  | nil => intro b nd; rfl
  | cons k ks ih =>
    intro b nd
    simp only [List.cons_append, statAt]
    cases childLookup k nd with
    | none => rfl
    | some c => exact ih b c

theorem spine_gt : ∀ (r : FNode) (nm : String), sortedT r = true → spineLb nm r = true →
    ∀ k x, childLookup k r = some x → strLt nm k = true := by
  intro r
  induction r with
  | file rc => intro nm _ _ k x h; exact absurd h (by simp [childLookup])
  | dnil => intro nm _ _ k x h; exact absurd h (by simp [childLookup])
  | dcons nm2 c2 r2 ihc ihr =>
    intro nm hs hlt k x h
    obtain ⟨_, hsr2, hlb2⟩ := sortedT_dcons nm2 c2 r2 hs
    rw [spineLb] at hlt
    rw [childLookup] at h
    by_cases hk : nm2 = k
    · exact hk ▸ hlt
    · rw [if_neg hk] at h
      have hlt2 : spineLb nm2 r2 = true := hlb2
      exact strLt_trans nm nm2 k hlt (ihr nm2 hsr2 hlt2 k x h)

theorem evalExpr_pure : ∀ (e : FindExpr) (fs : FNode) (cwd nm d : String) (nd : FNode),
    hasExec e = false → (evalExpr fs cwd e nm d nd).2 = ("", "") := by
  intro e
  induction e with
  | tru => intro fs cwd nm d nd _; rfl
  | name g => intro fs cwd nm d nd _; rfl
  | typ b => intro fs cwd nm d nd _; rfl
  | maxdepth n => intro fs cwd nm d nd _; rfl
  | not a iha =>
    intro fs cwd nm d nd h
    rw [hasExec] at h
    simp only [evalExpr]
    exact iha fs cwd nm d nd h
  | and a b iha ihb =>
    intro fs cwd nm d nd h
    rw [hasExec] at h
    simp only [Bool.or_eq_false_iff] at h
    simp only [evalExpr]
    by_cases h1 : (evalExpr fs cwd a nm d nd).1 = true
    · rw [if_pos h1]
      have ha := iha fs cwd nm d nd h.1
      have hb := ihb fs cwd nm d nd h.2
      simp only [Prod.ext_iff] at ha hb
      simp [ha.1, ha.2, hb.1, hb.2, str_nil_append]
    · rw [if_neg h1]
      exact iha fs cwd nm d nd h.1
  | or a b iha ihb =>
    intro fs cwd nm d nd h
    rw [hasExec] at h
    simp only [Bool.or_eq_false_iff] at h
    simp only [evalExpr]
    by_cases h1 : (evalExpr fs cwd a nm d nd).1 = true
    · rw [if_pos h1]
      exact iha fs cwd nm d nd h.1
    · rw [if_neg h1]
      have ha := iha fs cwd nm d nd h.1
      have hb := ihb fs cwd nm d nd h.2
      simp only [Prod.ext_iff] at ha hb
      simp [ha.1, ha.2, hb.1, hb.2, str_nil_append]
  | exec cn cargs =>
    intro fs cwd nm d nd h
    exact absurd h (by simp [hasExec])

/-! Traversal lemmas. -/

theorem kidsRecs_emit_rel (fs : FNode) (cwd : String) (e : FindExpr) (hasEx : Bool) :
    ∀ (sp : FNode) (cap : Option Nat) (d : Nat) (r1 r2 : List String) (par : String),
      (kidsRecs cap d r1 par sp).map (emitLine fs cwd e hasEx)
        = (kidsRecs cap d r2 par sp).map (emitLine fs cwd e hasEx) := by
  intro sp
  induction sp with
  | file c => intro cap d r1 r2 par; rfl
  | dnil => intro cap d r1 r2 par; rfl
  | dcons nm c r ihc ihr =>
    intro cap d r1 r2 par
    simp only [kidsRecs, List.map_cons, List.map_append]
    rw [ihr cap d r1 r2 par]
    have hhead : emitLine fs cwd e hasEx ⟨r1 ++ [nm], par ++ "/" ++ nm, nm, c⟩
        = emitLine fs cwd e hasEx ⟨r2 ++ [nm], par ++ "/" ++ nm, nm, c⟩ := rfl
    rw [hhead]
    by_cases hc : (isDir c && capLT cap d) = true
    · simp only [hc, if_true]
      rw [ihc cap (d + 1) (r1 ++ [nm]) (r2 ++ [nm]) (par ++ "/" ++ nm)]
    · simp only [Bool.not_eq_true] at hc
      simp only [hc, Bool.false_eq_true, if_false]

theorem visit_frame (fs : FNode) (cwd : String) (e : FindExpr) (hasEx : Bool) (cap : Option Nat) :
    ∀ (f : Nat) (task : VTask), ∃ O E, ∀ st,
      visit fs cwd e hasEx cap f task st = ⟨st.out ++ O, st.err ++ E, st.ec⟩ := by
  intro f
  induction f with
  | zero =>
    intro task
    exact ⟨"", "", fun st => by simp [visit, str_append_nil]⟩
  | succ f ih =>
    intro task
    cases task with
    | vnode d disp nm nd =>
      obtain ⟨O, E, hOE⟩ := ih (.vkids (d + 1) disp (sortSpine nd))
      by_cases hc : (isDir nd && capLT cap d) = true
      · refine ⟨(evalExpr fs cwd e nm disp nd).2.1
            ++ (if (evalExpr fs cwd e nm disp nd).1 && !hasEx then disp ++ "\n" else "") ++ O,
          (evalExpr fs cwd e nm disp nd).2.2 ++ E, fun st => ?_⟩
        simp only [visit, hc, if_true]
        rw [hOE]
        simp [str_append_assoc]
      · refine ⟨(evalExpr fs cwd e nm disp nd).2.1
            ++ (if (evalExpr fs cwd e nm disp nd).1 && !hasEx then disp ++ "\n" else ""),
          (evalExpr fs cwd e nm disp nd).2.2, fun st => ?_⟩
        simp only [Bool.not_eq_true] at hc
        simp only [visit, hc, Bool.false_eq_true, if_false]
        simp [str_append_assoc]
    | vkids d par sp =>
      cases sp with
      | file c => exact ⟨"", "", fun st => by simp [visit, str_append_nil]⟩
      | dnil => exact ⟨"", "", fun st => by simp [visit, str_append_nil]⟩
      | dcons nm c r =>
        obtain ⟨O1, E1, h1⟩ := ih (.vnode d (par ++ "/" ++ nm) nm c)
        obtain ⟨O2, E2, h2⟩ := ih (.vkids d par r)
        refine ⟨O1 ++ O2, E1 ++ E2, fun st => ?_⟩
        simp only [visit]
        rw [h1, h2]
        simp [str_append_assoc]

theorem visit_split (fs : FNode) (cwd : String) (e : FindExpr) (hasEx : Bool) (cap : Option Nat)
    (hfree : hasExec e = false) : ∀ f : Nat,
    (∀ (d : Nat) (disp nm : String) (nd : FNode) (st : OSt), sortedT nd = true → 2 * sizeF nd + 1 ≤ f →
      visit fs cwd e hasEx cap f (.vnode d disp nm nd) st
        = { st with out := st.out ++ emitN fs cwd e hasEx cap d disp nm nd })
  ∧ (∀ (d : Nat) (par : String) (sp : FNode) (st : OSt), sortedT sp = true → 2 * sizeF sp ≤ f →
      visit fs cwd e hasEx cap f (.vkids d par sp) st
        = { st with out := st.out ++ emitK fs cwd e hasEx cap d par sp }) := by
  intro f
  induction f with
  | zero =>
    constructor
    · intro d disp nm nd st _ hf
      have := sizeF_pos nd
      omega
    · intro d par sp st _ hf
      have := sizeF_pos sp
      omega
  | succ f ih =>
    obtain ⟨ihN, ihK⟩ := ih
    constructor
    · intro d disp nm nd st hs hf
      have hp2 : (evalExpr fs cwd e nm disp nd).2 = ("", "") := evalExpr_pure e fs cwd nm disp nd hfree
      have hp21 : (evalExpr fs cwd e nm disp nd).2.1 = "" := by rw [hp2]
      have hp22 : (evalExpr fs cwd e nm disp nd).2.2 = "" := by rw [hp2]
      have hline : (evalExpr fs cwd e nm disp nd).1 = truthOf fs cwd e nm disp nd := rfl
      by_cases hc : (isDir nd && capLT cap d) = true
      · simp only [visit, hc, if_true, hp21, hp22, hline]
        rw [sortSpine_id nd hs]
        rw [ihK (d + 1) disp nd _ hs (by omega)]
        simp only [emitN, hc, if_true]
        cases st with
        | mk o er ec => simp [str_append_nil, str_append_assoc]
      · simp only [Bool.not_eq_true] at hc
        simp only [visit, hc, Bool.false_eq_true, if_false, hp21, hp22, hline]
        simp only [emitN, hc, Bool.false_eq_true, if_false]
        cases st with
        | mk o er ec => simp [str_append_nil, str_append_assoc]
    · intro d par sp st hs hf
      cases sp with
      | file c =>
        simp [visit, emitK, str_append_nil]
      | dnil =>
        simp [visit, emitK, str_append_nil]
      | dcons nm c r =>
        obtain ⟨hsc, hsr, _⟩ := sortedT_dcons nm c r hs
        have hszc := sizeF_pos c
        have hszr := sizeF_pos r
        have hsz : sizeF (FNode.dcons nm c r) = 1 + sizeF c + sizeF r := rfl
        simp only [visit]
        rw [ihN d (par ++ "/" ++ nm) nm c st hsc (by omega)]
        rw [ihK d par r _ hsr (by omega)]
        simp only [emitK, emitN]
        cases st with
        | mk o er ec => simp [str_append_assoc]

theorem emitK_recs (fs : FNode) (cwd : String) (e : FindExpr) (hasEx : Bool) (cap : Option Nat) :
    ∀ (sp : FNode) (d : Nat) (relPre : List String) (par : String),
      emitK fs cwd e hasEx cap d par sp
        = strConcat ((kidsRecs cap d relPre par sp).map (emitLine fs cwd e hasEx)) := by
  intro sp
  induction sp with
  | file c => intro d relPre par; rfl
  | dnil => intro d relPre par; rfl
  | dcons nm c r ihc ihr =>
    intro d relPre par
    simp only [emitK, kidsRecs, List.map_cons, List.map_append, strConcat, strConcat_append]
    rw [ihr d relPre par]
    have hline : emitLine fs cwd e hasEx ⟨relPre ++ [nm], par ++ "/" ++ nm, nm, c⟩
        = (if truthOf fs cwd e nm (par ++ "/" ++ nm) c && !hasEx then par ++ "/" ++ nm ++ "\n" else "") := rfl
    rw [hline]
    by_cases hc : (isDir c && capLT cap d) = true
    · simp only [hc, if_true]
      rw [ihc (d + 1) (relPre ++ [nm]) (par ++ "/" ++ nm)]
    · simp only [Bool.not_eq_true] at hc
      simp only [hc, Bool.false_eq_true, if_false, List.map_nil, strConcat, str_nil_append]

theorem emitN_recs (fs : FNode) (cwd : String) (e : FindExpr) (hasEx : Bool) (cap : Option Nat)
    (d : Nat) (disp nm : String) (nd : FNode) :
    emitN fs cwd e hasEx cap d disp nm nd
      = strConcat ((nodeRecsD cap d disp nm nd).map (emitLine fs cwd e hasEx)) := by
  simp only [emitN, nodeRecsD, List.map_cons, strConcat]
  have hline : emitLine fs cwd e hasEx ⟨[], disp, nm, nd⟩
      = (if truthOf fs cwd e nm disp nd && !hasEx then disp ++ "\n" else "") := rfl
  rw [hline]
  by_cases hc : (isDir nd && capLT cap d) = true
  · simp only [hc, if_true]
    rw [emitK_recs fs cwd e hasEx cap nd (d + 1) [] disp]
  · simp only [Bool.not_eq_true] at hc
    simp only [hc, Bool.false_eq_true, if_false, List.map_nil, strConcat, str_append_nil]

theorem kidsRecs_stat : ∀ (sp : FNode) (cap : Option Nat) (d : Nat) (relPre : List String) (par : String)
    (rec : FRec), sortedT sp = true → rec ∈ kidsRecs cap d relPre par sp →
    ∃ k rel3, rec.rel = relPre ++ k :: rel3 ∧ statAt (k :: rel3) sp = some rec.node := by
  intro sp
  induction sp with
  | file c => intro cap d relPre par rec _ h; exact absurd h (by simp [kidsRecs])
  | dnil => intro cap d relPre par rec _ h; exact absurd h (by simp [kidsRecs])
  | dcons nm c r ihc ihr =>
    intro cap d relPre par rec hs hmem
    obtain ⟨hsc, hsr, hlb⟩ := sortedT_dcons nm c r hs
    simp only [kidsRecs, List.mem_cons, List.mem_append] at hmem
    rcases hmem with hhead | hinner | hrest
    · refine ⟨nm, [], ?_, ?_⟩
      · rw [hhead]
      · rw [hhead]
        simp [statAt, childLookup]
    · by_cases hc : (isDir c && capLT cap d) = true
      · rw [hc] at hinner
        simp only [if_true] at hinner
        obtain ⟨k, rel3, hrel, hstat⟩ := ihc cap (d + 1) (relPre ++ [nm]) (par ++ "/" ++ nm) rec hsc hinner
        refine ⟨nm, k :: rel3, ?_, ?_⟩
        · rw [hrel, List.append_assoc]
          rfl
        · simp only [statAt, childLookup, if_pos rfl]
          exact hstat
      · simp only [Bool.not_eq_true] at hc
        rw [hc] at hinner
        simp at hinner
    · obtain ⟨k, rel3, hrel, hstat⟩ := ihr cap d relPre par rec hsr hrest
      refine ⟨k, rel3, hrel, ?_⟩
      have hlk : ∃ x, childLookup k r = some x := by
        rw [statAt] at hstat
        cases hck : childLookup k r with
        | none => rw [hck] at hstat; exact absurd hstat (by simp)
        | some x => exact ⟨x, rfl⟩
      obtain ⟨x, hx⟩ := hlk
      have hne : nm ≠ k := strLt_ne nm k (spine_gt r nm hsr hlb k x hx)
      rw [statAt, childLookup, if_neg hne]
      rw [statAt] at hstat
      exact hstat

theorem pathRecs_stat (fs : FNode) (cwd : String) (cap : Option Nat) (p : String) (nd : FNode)
    (hsort : sortedT fs = true) (h : statAt (resolveComps cwd p) fs = some nd) :
    ∀ rec ∈ pathRecs fs cwd cap p, statAt (resolveComps cwd p ++ rec.rel) fs = some rec.node := by
  intro rec hmem
  rw [pathRecs, h] at hmem
  simp only [nodeRecsD, List.mem_cons] at hmem
  rcases hmem with hhead | hkids
  · rw [hhead]
    simp only [List.append_nil]
    exact h
  · have hsnd : sortedT nd = true := statAt_sorted (resolveComps cwd p) fs nd hsort h
    by_cases hc : (isDir nd && capLT cap 0) = true
    · rw [hc] at hkids
      simp only [if_true] at hkids
      obtain ⟨k, rel3, hrel, hstat⟩ := kidsRecs_stat nd cap 1 [] p rec hsnd hkids
      rw [hrel, List.nil_append, statAt_append, h]
      exact hstat
    · simp only [Bool.not_eq_true] at hc
      rw [hc] at hkids
      simp at hkids

theorem kidsRecs_disp : ∀ (sp : FNode) (cap : Option Nat) (d : Nat) (relPre : List String) (par : String)
    (rec : FRec), rec ∈ kidsRecs cap d relPre par sp → ∃ q, rec.disp = q ++ "/" ++ rec.name := by
  intro sp
  induction sp with
  | file c => intro cap d relPre par rec h; exact absurd h (by simp [kidsRecs])
  | dnil => intro cap d relPre par rec h; exact absurd h (by simp [kidsRecs])
  | dcons nm c r ihc ihr =>
    intro cap d relPre par rec hmem
    simp only [kidsRecs, List.mem_cons, List.mem_append] at hmem
    rcases hmem with hhead | hinner | hrest
    · exact ⟨par, by rw [hhead]⟩
    · by_cases hc : (isDir c && capLT cap d) = true
      · rw [hc] at hinner
        simp only [if_true] at hinner
        exact ihc cap (d + 1) (relPre ++ [nm]) (par ++ "/" ++ nm) rec hinner
      · simp only [Bool.not_eq_true] at hc
        rw [hc] at hinner
        simp at hinner
    · exact ihr cap d relPre par rec hrest

theorem findPathRun_frame (fs : FNode) (cwd : String) (e : FindExpr) (hasEx : Bool) (cap : Option Nat)
    (p : String) (st : OSt) :
    findPathRun fs cwd e hasEx cap p st
      = ⟨st.out ++ (findPathRun fs cwd e hasEx cap p ⟨"", "", 0⟩).out,
         st.err ++ (findPathRun fs cwd e hasEx cap p ⟨"", "", 0⟩).err,
         max st.ec (findPathRun fs cwd e hasEx cap p ⟨"", "", 0⟩).ec⟩ := by
  cases hstat : statAt (resolveComps cwd p) fs with
  | none =>
    simp only [findPathRun, hstat]
    simp [str_append_nil, str_nil_append, str_append_assoc]
  | some nd =>
    obtain ⟨O, E, hOE⟩ := visit_frame fs cwd e hasEx cap (2 * sizeF nd + 2) (.vnode 0 p (rootBase (resolveComps cwd p)) nd)
    simp only [findPathRun, hstat]
    rw [hOE, hOE]
    simp [str_nil_append]

theorem findFold (fs : FNode) (cwd : String) (e : FindExpr) :
    ∀ (paths : List String) (st : OSt),
      paths.foldl (fun st p => findPathRun fs cwd e (hasExec e) (maxdOf e) p st) st
        = ⟨st.out ++ strConcat (paths.map fun p => (pathZ fs cwd e p).out),
           st.err ++ strConcat (paths.map fun p => (pathZ fs cwd e p).err),
           paths.foldl (fun a p => max a (pathZ fs cwd e p).ec) st.ec⟩ := by
  intro paths
  induction paths with
  | nil => intro st; simp [strConcat, str_append_nil]
  | cons p ps ih =>
    intro st
    simp only [List.foldl_cons, List.map_cons, strConcat]
    rw [findPathRun_frame fs cwd e (hasExec e) (maxdOf e) p st]
    rw [ih]
    simp [pathZ, str_append_assoc]

theorem takePaths_split : ∀ (paths toks : List String), (∀ p ∈ paths, pathArg p = true) →
    (∀ t, toks.head? = some t → pathArg t = false) →
    takePaths (paths ++ toks) = (paths, toks) := by
  intro paths
  induction paths with
  | nil =>
    intro toks _ ht
    cases toks with
    | nil => rfl
    | cons t r =>
      have : pathArg t = false := ht t rfl
      simp [takePaths, this]
  | cons p ps ih =>
    intro toks hp ht
    have hpp : pathArg p = true := hp p (by simp)
    simp only [List.cons_append, takePaths, hpp, if_true, List.append_eq]
    rw [ih toks (fun q hq => hp q (by simp [hq])) ht]

theorem helpIn_false (args : List String) (h : ∀ a ∈ args, a ≠ "--help") : helpIn args = false := by
  rw [helpIn]
  by_contra hc
  simp only [Bool.not_eq_false, List.any_eq_true] at hc
  obtain ⟨a, ha, hbeq⟩ := hc
  exact h a ha (by simpa using hbeq)

theorem findCmd_eval (fs : FNode) (cwd : String) (paths toks : List String) (e : FindExpr)
    (hp : ∀ p ∈ paths, pathArg p = true) (hph : ∀ p ∈ paths, p ≠ "--help")
    (hne : paths ≠ [])
    (ht : ∀ t, toks.head? = some t → pathArg t = false)
    (hth : ∀ t ∈ toks, t ≠ "--help")
    (hparse : parseFind toks = .ok e) :
    findCmd fs cwd (paths ++ toks)
      = ⟨strConcat (paths.map fun p => (pathZ fs cwd e p).out),
         strConcat (paths.map fun p => (pathZ fs cwd e p).err),
         paths.foldl (fun a p => max a (pathZ fs cwd e p).ec) 0⟩ := by
  have hhelp : helpIn (paths ++ toks) = false := by
    apply helpIn_false
    intro a ha
    rcases List.mem_append.mp ha with h1 | h2
    · exact hph a h1
    · exact hth a h2
  have hsplit := takePaths_split paths toks hp ht
  rw [findCmd, hhelp]
  simp only [Bool.false_eq_true, if_false, hsplit]
  have hnemp : paths.isEmpty = false := by
    cases paths with
    | nil => exact absurd rfl hne
    | cons a r => rfl
  simp only [hnemp, Bool.false_eq_true, if_false, hparse]
  rw [findFold fs cwd e paths ⟨"", "", 0⟩]
  simp [str_nil_append]

theorem pathZ_missing (fs : FNode) (cwd : String) (e : FindExpr) (p : String)
    (h : statAt (resolveComps cwd p) fs = none) :
    pathZ fs cwd e p = ⟨"", pathFailLine p, 1⟩ := by
  simp only [pathZ, findPathRun, h]
  simp [pathFailLine, str_nil_append]

theorem pathZ_pure (fs : FNode) (cwd : String) (e : FindExpr) (p : String) (nd : FNode)
    (hfree : hasExec e = false) (hsort : sortedT fs = true)
    (h : statAt (resolveComps cwd p) fs = some nd) :
    pathZ fs cwd e p
      = ⟨strConcat ((pathRecs fs cwd (maxdOf e) p).map (emitLine fs cwd e (hasExec e))), "", 0⟩ := by
  have hsnd : sortedT nd = true := statAt_sorted (resolveComps cwd p) fs nd hsort h
  obtain ⟨hN, _⟩ := visit_split fs cwd e (hasExec e) (maxdOf e) hfree (2 * sizeF nd + 2)
  simp only [pathZ, findPathRun, h]
  rw [hN 0 p (rootBase (resolveComps cwd p)) nd ⟨"", "", 0⟩ hsnd (by omega)]
  rw [pathRecs, h]
  rw [emitN_recs]
  simp [str_nil_append]

theorem foldl_max_const {α : Type} (g : α → Nat) (l : List α) :
    ∀ init : Nat, (∀ x ∈ l, g x = 0) → l.foldl (fun a x => max a (g x)) init = init := by
  induction l with
  | nil => intro init _; rfl
  | cons x r ih =>
    intro init h
    simp only [List.foldl_cons]
    rw [h x (by simp), Nat.max_zero]
    exact ih init (fun y hy => h y (by simp [hy]))

theorem foldl_max_le_one {α : Type} (g : α → Nat) (l : List α) :
    ∀ init : Nat, init ≤ 1 → (∀ x ∈ l, g x ≤ 1) → (∃ x ∈ l, g x = 1) →
      l.foldl (fun a x => max a (g x)) init = 1 := by
  induction l with
  | nil =>
    intro init _ _ hex
    obtain ⟨x, hx, _⟩ := hex
    exact absurd hx (by simp)
  | cons x r ih =>
    intro init hinit hle hex
    simp only [List.foldl_cons]
    by_cases hone : ∃ y ∈ r, g y = 1
    · exact ih (max init (g x)) (by have := hle x (by simp); omega) (fun y hy => hle y (by simp [hy])) hone
    · have hx1 : g x = 1 := by
        obtain ⟨y, hy, hgy⟩ := hex
        rcases List.mem_cons.mp hy with h1 | h2
        · exact h1 ▸ hgy
        · exact absurd ⟨y, h2, hgy⟩ hone
      have hstay : ∀ rr : List α, (∀ y ∈ rr, g y ≤ 1) → rr.foldl (fun a y => max a (g y)) 1 = 1 := by
        intro rr
        induction rr with
        | nil => intro _; rfl
        | cons z zs ihz =>
          intro hz
          simp only [List.foldl_cons]
          rw [Nat.max_eq_left (hz z (by simp))]
          exact ihz (fun y hy => hz y (by simp [hy]))
      have hmx : max init (g x) = 1 := by
        rw [hx1]
        exact Nat.max_eq_right hinit
      rw [hmx]
      exact hstay r (fun y hy => hle y (by simp [hy]))

theorem pathZ_ec_le (fs : FNode) (cwd : String) (e : FindExpr) (p : String) :
    (pathZ fs cwd e p).ec ≤ 1 := by
  cases hstat : statAt (resolveComps cwd p) fs with
  | none => rw [pathZ_missing fs cwd e p hstat]
  | some nd =>
    obtain ⟨O, E, hOE⟩ := visit_frame fs cwd e (hasExec e) (maxdOf e) (2 * sizeF nd + 2)
      (.vnode 0 p (rootBase (resolveComps cwd p)) nd)
    simp only [pathZ, findPathRun, hstat]
    rw [hOE]
    exact Nat.zero_le 1

/-- C1: a find invocation with no predicates over existing paths lists,
for each path argument in order, exactly the reachable entries in
pre-order depth-first order with the children of every directory in
lexicographic order of basenames, each followed by a newline, with empty
stderr and exit code zero; every emitted entry stats successfully. -/
theorem c1_find_no_predicates (fs : FNode) (cwd : String) (paths : List String)
    (hsort : sortedT fs = true) (hne : paths ≠ [])
    (hp : ∀ p ∈ paths, pathArg p = true) (hph : ∀ p ∈ paths, p ≠ "--help")
    (hex : ∀ p ∈ paths, (statAt (resolveComps cwd p) fs).isSome = true) :
    findCmd fs cwd paths
      = ⟨strConcat (paths.map fun p =>
            strConcat ((pathRecs fs cwd none p).map (fun rec => rec.disp ++ "\n"))), "", 0⟩
  ∧ ∀ p ∈ paths, ∀ rec ∈ pathRecs fs cwd none p,
      statAt (resolveComps cwd p ++ rec.rel) fs = some rec.node := by
  have hmain := findCmd_eval fs cwd paths [] .tru hp hph hne
    (fun t ht => by simp at ht) (fun t ht => by simp at ht) rfl
  rw [List.append_nil] at hmain
  have hout : ∀ p ∈ paths, (pathZ fs cwd .tru p).out
      = strConcat ((pathRecs fs cwd none p).map (fun rec => rec.disp ++ "\n")) := by
    intro p hpm
    obtain ⟨nd, hnd⟩ := Option.isSome_iff_exists.mp (hex p hpm)
    rw [pathZ_pure fs cwd .tru p nd rfl hsort hnd]
    have hfun : emitLine fs cwd .tru (hasExec .tru) = fun rec : FRec => rec.disp ++ "\n" := by
      funext rec
      rfl
    rw [show maxdOf FindExpr.tru = none from rfl] at *
    rw [hfun]
  have herr : ∀ p ∈ paths, (pathZ fs cwd .tru p).err = "" := by
    intro p hpm
    obtain ⟨nd, hnd⟩ := Option.isSome_iff_exists.mp (hex p hpm)
    rw [pathZ_pure fs cwd .tru p nd rfl hsort hnd]
  have hec : ∀ p ∈ paths, (pathZ fs cwd .tru p).ec = 0 := by
    intro p hpm
    obtain ⟨nd, hnd⟩ := Option.isSome_iff_exists.mp (hex p hpm)
    rw [pathZ_pure fs cwd .tru p nd rfl hsort hnd]
  constructor
  · rw [hmain]
    have h1 : paths.map (fun p => (pathZ fs cwd .tru p).out)
        = paths.map (fun p => strConcat ((pathRecs fs cwd none p).map (fun rec => rec.disp ++ "\n"))) :=
      List.map_congr_left hout
    have h2 : strConcat (paths.map fun p => (pathZ fs cwd .tru p).err) = "" :=
      strConcat_all_nil _ paths herr
    have h3 : paths.foldl (fun a p => max a (pathZ fs cwd .tru p).ec) 0 = 0 :=
      foldl_max_const _ paths 0 hec
    rw [h1, h2, h3]
  · intro p hpm rec hrec
    obtain ⟨nd, hnd⟩ := Option.isSome_iff_exists.mp (hex p hpm)
    exact pathRecs_stat fs cwd none p nd hsort hnd rec hrec

/-- C2: a find invocation with a name predicate over existing paths emits
exactly the visited entries whose basename matches the glob anchored end
to end, each followed by a newline; entries whose basename fails the
match are not emitted; each emitted path below a root displays as its
parent path, a slash and its basename. -/
theorem c2_find_name (fs : FNode) (cwd : String) (paths : List String) (G : String)
    (hsort : sortedT fs = true) (hne : paths ≠ [])
    (hp : ∀ p ∈ paths, pathArg p = true) (hph : ∀ p ∈ paths, p ≠ "--help")
    (hG : G ≠ "--help")
    (hex : ∀ p ∈ paths, (statAt (resolveComps cwd p) fs).isSome = true) :
    findCmd fs cwd (paths ++ ["-name", G])
      = ⟨strConcat (paths.map fun p =>
            strConcat ((pathRecs fs cwd none p).map
              (fun rec => if globMatches G rec.name then rec.disp ++ "\n" else ""))), "", 0⟩
  ∧ ∀ p ∈ paths, ∀ rec ∈ (pathRecs fs cwd none p).tail, ∃ q, rec.disp = q ++ "/" ++ rec.name := by
  have hparse : parseFind ["-name", G] = .ok (.name G) := rfl
  have hmain := findCmd_eval fs cwd paths ["-name", G] (.name G) hp hph hne
    (fun t ht => by
      simp only [List.head?] at ht
      cases ht
      rfl)
    (fun t ht => by
      rcases List.mem_cons.mp ht with h1 | h2
      · rw [h1]; decide
      · simp only [List.mem_singleton] at h2
        rw [h2]; exact hG)
    hparse
  have hfun : emitLine fs cwd (.name G) (hasExec (.name G))
      = fun rec : FRec => if globMatches G rec.name then rec.disp ++ "\n" else "" := by
    funext rec
    simp [emitLine, truthOf, evalExpr, hasExec]
  have hout : ∀ p ∈ paths, (pathZ fs cwd (.name G) p).out
      = strConcat ((pathRecs fs cwd none p).map
          (fun rec => if globMatches G rec.name then rec.disp ++ "\n" else "")) := by
    intro p hpm
    obtain ⟨nd, hnd⟩ := Option.isSome_iff_exists.mp (hex p hpm)
    rw [pathZ_pure fs cwd (.name G) p nd rfl hsort hnd]
    rw [show maxdOf (FindExpr.name G) = none from rfl] at *
    rw [hfun]
  have herr : ∀ p ∈ paths, (pathZ fs cwd (.name G) p).err = "" := by
    intro p hpm
    obtain ⟨nd, hnd⟩ := Option.isSome_iff_exists.mp (hex p hpm)
    rw [pathZ_pure fs cwd (.name G) p nd rfl hsort hnd]
  have hec : ∀ p ∈ paths, (pathZ fs cwd (.name G) p).ec = 0 := by
    intro p hpm
    obtain ⟨nd, hnd⟩ := Option.isSome_iff_exists.mp (hex p hpm)
    rw [pathZ_pure fs cwd (.name G) p nd rfl hsort hnd]
  constructor
  · rw [hmain]
    rw [List.map_congr_left hout, strConcat_all_nil _ paths herr, foldl_max_const _ paths 0 hec]
  · intro p hpm rec hrec
    obtain ⟨nd, hnd⟩ := Option.isSome_iff_exists.mp (hex p hpm)
    simp only [pathRecs, hnd, nodeRecsD, List.tail_cons] at hrec
    by_cases hc : (isDir nd && capLT none 0) = true
    · rw [hc] at hrec
      simp only [if_true] at hrec
      exact kidsRecs_disp nd none 1 [] p rec hrec
    · simp only [Bool.not_eq_true] at hc
      rw [hc] at hrec
      simp at hrec

/-- C4: a find invocation whose path arguments include missing paths
emits the missing-path diagnostic for each of them on stderr, still
traverses every existing path argument in order, and exits with code
one, the maximum of the per-path outcomes. -/
theorem c4_missing_paths (fs : FNode) (cwd : String) (paths toks : List String) (e : FindExpr)
    (hp : ∀ p ∈ paths, pathArg p = true) (hph : ∀ p ∈ paths, p ≠ "--help")
    (hne : paths ≠ [])
    (ht : ∀ t, toks.head? = some t → pathArg t = false)
    (hth : ∀ t ∈ toks, t ≠ "--help")
    (hparse : parseFind toks = .ok e)
    (hmiss : ∃ p ∈ paths, statAt (resolveComps cwd p) fs = none) :
    (findCmd fs cwd (paths ++ toks)).exitCode = 1
  ∧ (findCmd fs cwd (paths ++ toks)).stderr = strConcat (paths.map fun p => (pathZ fs cwd e p).err)
  ∧ (findCmd fs cwd (paths ++ toks)).stdout = strConcat (paths.map fun p => (pathZ fs cwd e p).out)
  ∧ (∀ p, statAt (resolveComps cwd p) fs = none → pathZ fs cwd e p = ⟨"", pathFailLine p, 1⟩)
  ∧ (findCmd fs cwd (paths ++ toks)).exitCode
      = paths.foldl (fun a p => max a (pathZ fs cwd e p).ec) 0 := by
  have hmain := findCmd_eval fs cwd paths toks e hp hph hne ht hth hparse
  have hec1 : (findCmd fs cwd (paths ++ toks)).exitCode = 1 := by
    rw [hmain]
    apply foldl_max_le_one _ paths 0 (by omega) (fun p _ => pathZ_ec_le fs cwd e p)
    obtain ⟨p, hpm, hnone⟩ := hmiss
    exact ⟨p, hpm, by rw [pathZ_missing fs cwd e p hnone]⟩
  refine ⟨hec1, by rw [hmain], by rw [hmain], fun p hnone => pathZ_missing fs cwd e p hnone, by rw [hmain]⟩

/-- C8 counterexample: for the grouped exec invocation of the test suite
the matched paths are not emitted: stdout is exactly the concatenated
outputs of the executed commands, although the expression evaluates to
truth at the markdown file. -/
theorem c8_counterexample :
    findCmd projFS "/project"
        ["/project", "-type", "f", "(", "-name", "*.md", "-o", "-name", "*.json", ")", "-exec", "cat", "\x7b\x7d", ";"]
      = ⟨"# Project\x7b\x7d\x7b\x7d", "", 0⟩
  ∧ truthOf projFS "/project" exprC8 "README.md" "/project/README.md" (.file "# Project") = true
  ∧ strIn "/project/README.md\n" "# Project\x7b\x7d\x7b\x7d" = false := by
  refine ⟨rfl, rfl, by decide⟩

/-- C8 amended: for every exec-free expression, find emits on stdout, at
each visited node in traversal order, the node's path followed by a
newline exactly when the expression evaluates to truth there; when the
expression contains an exec action the paths are not emitted and stdout
carries the output of the executed commands instead, as the
counterexample shows on the spec scenario. -/
theorem c8_emission (fs : FNode) (cwd : String) (paths toks : List String) (e : FindExpr)
    (hsort : sortedT fs = true) (hne : paths ≠ [])
    (hp : ∀ p ∈ paths, pathArg p = true) (hph : ∀ p ∈ paths, p ≠ "--help")
    (ht : ∀ t, toks.head? = some t → pathArg t = false)
    (hth : ∀ t ∈ toks, t ≠ "--help")
    (hparse : parseFind toks = .ok e) (hfree : hasExec e = false)
    (hex : ∀ p ∈ paths, (statAt (resolveComps cwd p) fs).isSome = true) :
    findCmd fs cwd (paths ++ toks)
      = ⟨strConcat (paths.map fun p =>
            strConcat ((pathRecs fs cwd (maxdOf e) p).map
              (fun rec => if truthOf fs cwd e rec.name rec.disp rec.node then rec.disp ++ "\n" else ""))),
         "", 0⟩ := by
  have hmain := findCmd_eval fs cwd paths toks e hp hph hne ht hth hparse
  have hfun : emitLine fs cwd e (hasExec e)
      = fun rec : FRec => if truthOf fs cwd e rec.name rec.disp rec.node then rec.disp ++ "\n" else "" := by
    funext rec
    simp [emitLine, hfree]
  have hout : ∀ p ∈ paths, (pathZ fs cwd e p).out
      = strConcat ((pathRecs fs cwd (maxdOf e) p).map
          (fun rec => if truthOf fs cwd e rec.name rec.disp rec.node then rec.disp ++ "\n" else "")) := by
    intro p hpm
    obtain ⟨nd, hnd⟩ := Option.isSome_iff_exists.mp (hex p hpm)
    rw [pathZ_pure fs cwd e p nd hfree hsort hnd, hfun]
  have herr : ∀ p ∈ paths, (pathZ fs cwd e p).err = "" := by
    intro p hpm
    obtain ⟨nd, hnd⟩ := Option.isSome_iff_exists.mp (hex p hpm)
    rw [pathZ_pure fs cwd e p nd hfree hsort hnd]
  have hec : ∀ p ∈ paths, (pathZ fs cwd e p).ec = 0 := by
    intro p hpm
    obtain ⟨nd, hnd⟩ := Option.isSome_iff_exists.mp (hex p hpm)
    rw [pathZ_pure fs cwd e p nd hfree hsort hnd]
  rw [hmain]
  rw [List.map_congr_left hout, strConcat_all_nil _ paths herr, foldl_max_const _ paths 0 hec]

/-- C5: a find invocation whose expression starts with a token that is
not a recognized predicate or operator writes the unknown-predicate
diagnostic naming the token on stderr and returns exit code one, not
two. -/
theorem c5_unknown_predicate (fs : FNode) (cwd : String) (paths : List String) (tok : String)
    (hp : ∀ p ∈ paths, pathArg p = true) (hph : ∀ p ∈ paths, p ≠ "--help")
    (hdash : headIs '-' tok = true)
    (hnotin : tok ∉ (["-name", "-type", "-maxdepth", "-exec", "-a", "-and", "-o", "-or", "-not", "--help"] : List String)) :
    findCmd fs cwd (paths ++ [tok])
      = ⟨"", "find: " ++ ("unknown predicate \x27" ++ tok ++ "\x27") ++ "\n", 1⟩ := by
  simp only [List.mem_cons, List.mem_singleton, not_or] at hnotin
  obtain ⟨h1, h2, h3, h4, h5, h6, h7, h8, h9, hH, -⟩ := hnotin
  have h10 : tok ≠ "(" := by
    intro h
    rw [h] at hdash
    exact absurd hdash (by decide)
  have h11 : tok ≠ "!" := by
    intro h
    rw [h] at hdash
    exact absurd hdash (by decide)
  have e5 : pF 9 5 FindExpr.tru [tok] = .error ("unknown predicate \x27" ++ tok ++ "\x27") := by
    rw [pF.eq_def]
    split
    all_goals simp_all
  have e4 : pF 10 4 FindExpr.tru [tok] = .error ("unknown predicate \x27" ++ tok ++ "\x27") := by
    rw [pF.eq_def]
    split
    all_goals simp_all
  have e2 : pF 11 2 FindExpr.tru [tok] = .error ("unknown predicate \x27" ++ tok ++ "\x27") := by
    rw [pF.eq_def]
    split
    all_goals simp_all
  have e0 : pF 12 0 FindExpr.tru [tok] = .error ("unknown predicate \x27" ++ tok ++ "\x27") := by
    rw [pF.eq_def]
    split
    all_goals simp_all
  have hparse : parseFind [tok] = .error ("unknown predicate \x27" ++ tok ++ "\x27") := by
    simp only [parseFind]
    have hlen : 4 * [tok].length + 8 = 12 := rfl
    rw [hlen, e0]
  have hhelp : helpIn (paths ++ [tok]) = false := by
    apply helpIn_false
    intro a ha
    rcases List.mem_append.mp ha with hm | hm
    · exact hph a hm
    · simp only [List.mem_singleton] at hm
      rw [hm]
      exact hH
  have hsplit : takePaths (paths ++ [tok]) = (paths, [tok]) := by
    apply takePaths_split paths [tok] hp
    intro t ht
    simp only [List.head?] at ht
    cases ht
    simp [pathArg, hdash]
  rw [findCmd, hhelp]
  simp only [Bool.false_eq_true, if_false, hsplit]
  cases paths with
  | nil => simp [hparse]
  | cons p ps => simp [hparse]

/-- C3: in the find expression parser conjunction binds tighter than
disjunction, negation tighter than both, and parentheses override; in
particular a type-and-name conjunction on each side of a disjunction
parses the same way, and the whole invocation behaves the same, with and
without explicit grouping parentheses. -/
theorem c3_precedence (fs : FNode) (cwd P A B : String)
    (hP : pathArg P = true) (hPh : P ≠ "--help") (hA : A ≠ "--help") (hB : B ≠ "--help") :
    parseFind ["-type", "f", "-name", A, "-o", "-type", "f", "-name", B]
      = .ok (.or (.and (.typ true) (.name A)) (.and (.typ true) (.name B)))
  ∧ parseFind ["!", "-name", A, "-a", "-type", "f", "-o", "-type", "d"]
      = .ok (.or (.and (.not (.name A)) (.typ true)) (.typ false))
  ∧ parseFind ["-name", A, "-a", "(", "-name", A, "-o", "-name", B, ")"]
      = .ok (.and (.name A) (.or (.name A) (.name B)))
  ∧ findCmd fs cwd [P, "-type", "f", "-name", A, "-o", "-type", "f", "-name", B]
      = findCmd fs cwd [P, "(", "-type", "f", "-name", A, ")", "-o", "(", "-type", "f", "-name", B, ")"] := by
  refine ⟨rfl, rfl, rfl, ?_⟩
  have hL := findCmd_eval fs cwd [P] ["-type", "f", "-name", A, "-o", "-type", "f", "-name", B]
    (.or (.and (.typ true) (.name A)) (.and (.typ true) (.name B)))
    (by intro p hp; simp only [List.mem_singleton] at hp; rw [hp]; exact hP)
    (by intro p hp; simp only [List.mem_singleton] at hp; rw [hp]; exact hPh)
    (by simp)
    (by intro t ht; simp only [List.head?] at ht; cases ht; decide)
    (by
      intro t ht
      fin_cases ht
      all_goals first
        | decide
        | exact hA
        | exact hB)
    rfl
  have hR := findCmd_eval fs cwd [P] ["(", "-type", "f", "-name", A, ")", "-o", "(", "-type", "f", "-name", B, ")"]
    (.or (.and (.typ true) (.name A)) (.and (.typ true) (.name B)))
    (by intro p hp; simp only [List.mem_singleton] at hp; rw [hp]; exact hP)
    (by intro p hp; simp only [List.mem_singleton] at hp; rw [hp]; exact hPh)
    (by simp)
    (by intro t ht; simp only [List.head?] at ht; cases ht; decide)
    (by
      intro t ht
      fin_cases ht
      all_goals first
        | decide
        | exact hA
        | exact hB)
    rfl
  have hls : [P] ++ ["-type", "f", "-name", A, "-o", "-type", "f", "-name", B]
      = [P, "-type", "f", "-name", A, "-o", "-type", "f", "-name", B] := rfl
  have hrs : [P] ++ ["(", "-type", "f", "-name", A, ")", "-o", "(", "-type", "f", "-name", B, ")"]
      = [P, "(", "-type", "f", "-name", A, ")", "-o", "(", "-type", "f", "-name", B, ")"] := rfl
  rw [hls] at hL
  rw [hrs] at hR
  rw [hL, hR]

/-! Shell evaluator lemmas. -/

theorem evalSimple_builtin (f : Nat) (st : ShSt) (nm : String) (args : List String)
    (hfn : lookupFn nm st.funcs = none) :
    evalSh (f + 1) (.run (.simple nm args)) st
      = if st.cmds ≥ maxCommands then some (.abort { st with err := st.err ++ budgetMsg st, last := 1 })
        else some (.ok (runBuiltin nm (args.map (expandW st)) { st with cmds := st.cmds + 1 })) := by
  by_cases hc : st.cmds ≥ maxCommands
  · simp [evalSh, hc]
  · simp [evalSh, hc, hfn]

theorem loopW_abort (w : String) :
    ∀ (f i : Nat) (st : ShSt), maxLoopIterations - i < f → 0 < st.inLoop → st.funcs = [] →
      ∃ s, evalSh f (.loopW false (.simple "true" []) (.simple "echo" [w]) i) st = some (.abort s)
        ∧ s.err = st.err ++ "too many iterations\n" := by
  intro f
  induction f with
  | zero => intro i st hf _ _; omega
  | succ f ih =>
    intro i st hf hloop hfuncs
    by_cases hi : i ≥ maxLoopIterations
    · rw [evalSh, if_pos hi]
      exact ⟨_, rfl, rfl⟩
    · push_neg at hi
      obtain ⟨f, rfl⟩ : ∃ f2, f = f2 + 1 := ⟨f - 1, by omega⟩
      have hmsg : budgetMsg st = "too many iterations\n" := by
        rw [budgetMsg, if_pos hloop]
      rw [evalSh, if_neg (by omega)]
      have hlk1 : lookupFn "true" st.funcs = none := by rw [hfuncs]; rfl
      rw [evalSimple_builtin f st "true" [] hlk1]
      by_cases hcm : st.cmds ≥ maxCommands
      · simp only [if_pos hcm]
        exact ⟨_, rfl, by rw [hmsg]⟩
      · simp only [if_neg hcm]
        have hs1 : runBuiltin "true" (List.map (expandW st) []) { st with cmds := st.cmds + 1 }
            = { st with cmds := st.cmds + 1, last := 0 } := rfl
        rw [hs1]
        simp only [Bool.false_eq_true, if_false, ne_eq, if_true]
        have hlk2 : lookupFn "echo" ({ st with cmds := st.cmds + 1, last := 0 } : ShSt).funcs = none := by
          show lookupFn "echo" st.funcs = none
          rw [hfuncs]
          rfl
        rw [evalSimple_builtin f _ "echo" [w] hlk2]
        by_cases hcm2 : ({ st with cmds := st.cmds + 1, last := 0 } : ShSt).cmds ≥ maxCommands
        · simp only [if_pos hcm2]
          refine ⟨_, rfl, ?_⟩
          have hmsg2 : budgetMsg ({ st with cmds := st.cmds + 1, last := 0 } : ShSt)
              = "too many iterations\n" := by
            rw [budgetMsg, if_pos hloop]
          rw [hmsg2]
        · simp only [if_neg hcm2]
          obtain ⟨s, hs, herr⟩ := ih (i + 1)
            (runBuiltin "echo" (List.map (expandW { st with cmds := st.cmds + 1, last := 0 }) [w])
              { st with last := 0, cmds := st.cmds + 1 + 1 })
            (by omega) hloop hfuncs
          exact ⟨s, hs, herr⟩

theorem loopU_abort (w : String) :
    ∀ (f i : Nat) (st : ShSt), maxLoopIterations - i < f → 0 < st.inLoop → st.funcs = [] →
      ∃ s, evalSh f (.loopW true (.simple "false" []) (.simple "echo" [w]) i) st = some (.abort s)
        ∧ s.err = st.err ++ "too many iterations\n" := by
  intro f
  induction f with
  | zero => intro i st hf _ _; omega
  | succ f ih =>
    intro i st hf hloop hfuncs
    by_cases hi : i ≥ maxLoopIterations
    · rw [evalSh, if_pos hi]
      exact ⟨_, rfl, rfl⟩
    · push_neg at hi
      obtain ⟨f, rfl⟩ : ∃ f2, f = f2 + 1 := ⟨f - 1, by omega⟩
      have hmsg : budgetMsg st = "too many iterations\n" := by
        rw [budgetMsg, if_pos hloop]
      rw [evalSh, if_neg (by omega)]
      have hlk1 : lookupFn "false" st.funcs = none := by rw [hfuncs]; rfl
      rw [evalSimple_builtin f st "false" [] hlk1]
      by_cases hcm : st.cmds ≥ maxCommands
      · simp only [if_pos hcm]
        exact ⟨_, rfl, by rw [hmsg]⟩
      · simp only [if_neg hcm]
        have hs1 : runBuiltin "false" (List.map (expandW st) []) { st with cmds := st.cmds + 1 }
            = { st with cmds := st.cmds + 1, last := 1 } := rfl
        rw [hs1]
        simp only [if_true, ne_eq, one_ne_zero, not_false_eq_true]
        have hlk2 : lookupFn "echo" ({ st with cmds := st.cmds + 1, last := 1 } : ShSt).funcs = none := by
          show lookupFn "echo" st.funcs = none
          rw [hfuncs]
          rfl
        rw [evalSimple_builtin f _ "echo" [w] hlk2]
        by_cases hcm2 : ({ st with cmds := st.cmds + 1, last := 1 } : ShSt).cmds ≥ maxCommands
        · simp only [if_pos hcm2]
          refine ⟨_, rfl, ?_⟩
          have hmsg2 : budgetMsg ({ st with cmds := st.cmds + 1, last := 1 } : ShSt)
              = "too many iterations\n" := by
            rw [budgetMsg, if_pos hloop]
          rw [hmsg2]
        · simp only [if_neg hcm2]
          obtain ⟨s, hs, herr⟩ := ih (i + 1)
            (runBuiltin "echo" (List.map (expandW { st with cmds := st.cmds + 1, last := 1 }) [w])
              { st with last := 1, cmds := st.cmds + 1 + 1 })
            (by omega) hloop hfuncs
          exact ⟨s, hs, herr⟩

theorem loopF_abort (v w : String) :
    ∀ (ws : List String) (f i : Nat) (st : ShSt), ws ≠ [] → maxLoopIterations < i + ws.length →
      maxLoopIterations - i < f → 0 < st.inLoop → st.funcs = [] →
      ∃ s, evalSh f (.loopF v (.simple "echo" [w]) ws i) st = some (.abort s)
        ∧ s.err = st.err ++ "too many iterations\n" := by
  intro ws
  induction ws with
  | nil => intro f i st hne _ _ _ _; exact absurd rfl hne
  | cons w0 rest ih =>
    intro f i st _ hlen hf hloop hfuncs
    obtain ⟨f, rfl⟩ : ∃ f2, f = f2 + 1 := ⟨f - 1, by omega⟩
    by_cases hi : i ≥ maxLoopIterations
    · rw [evalSh]
      simp only [if_pos hi]
      exact ⟨_, rfl, rfl⟩
    · push_neg at hi
      obtain ⟨f, rfl⟩ : ∃ f2, f = f2 + 1 := ⟨f - 1, by omega⟩
      rw [evalSh]
      simp only [if_neg (by omega : ¬ i ≥ maxLoopIterations)]
      have hlk : lookupFn "echo"
          ({ st with vars := setVar v (expandW st w0) st.vars } : ShSt).funcs = none := by
        show lookupFn "echo" st.funcs = none
        rw [hfuncs]
        rfl
      rw [evalSimple_builtin f _ "echo" [w] hlk]
      by_cases hcm : ({ st with vars := setVar v (expandW st w0) st.vars } : ShSt).cmds ≥ maxCommands
      · simp only [if_pos hcm]
        refine ⟨_, rfl, ?_⟩
        have hmsg : budgetMsg ({ st with vars := setVar v (expandW st w0) st.vars } : ShSt)
            = "too many iterations\n" := by
          rw [budgetMsg, if_pos hloop]
        rw [hmsg]
      · simp only [if_neg hcm]
        have hrest : rest ≠ [] := by
          intro hr
          rw [hr] at hlen
          simp at hlen
          omega
        obtain ⟨s, hs, herr⟩ := ih (f + 1) (i + 1)
          (runBuiltin "echo"
            (List.map (expandW { st with vars := setVar v (expandW st w0) st.vars }) [w])
            { st with vars := setVar v (expandW st w0) st.vars, cmds := st.cmds + 1 })
          hrest (by simp only [List.length_cons] at hlen; omega) (by omega) hloop hfuncs
        exact ⟨s, hs, herr⟩

theorem rec_abort (nm : String) :
    ∀ (f : Nat) (st : ShSt), lookupFn nm st.funcs = some (.simple nm []) →
      st.cmds + (maxRecursionDepth - st.depth) < maxCommands →
      maxRecursionDepth - st.depth < f →
      ∃ s, evalSh f (.run (.simple nm [])) st = some (.abort s)
        ∧ s.err = st.err ++ nm ++ ": maximum recursion depth exceeded\n" := by
  intro f
  induction f with
  | zero => intro st _ _ hf; omega
  | succ f ih =>
    intro st hlk hcmds hf
    rw [evalSh]
    simp only [if_neg (by omega : ¬ st.cmds ≥ maxCommands), hlk]
    by_cases hd : ({ st with cmds := st.cmds + 1 } : ShSt).depth ≥ maxRecursionDepth
    · simp only [if_pos hd]
      exact ⟨_, rfl, rfl⟩
    · simp only [if_neg hd]
      have hdlt : st.depth < maxRecursionDepth := by
        simpa using hd
      obtain ⟨s, hs, herr⟩ := ih { st with cmds := st.cmds + 1, depth := st.depth + 1 }
        hlk
        (by show st.cmds + 1 + (maxRecursionDepth - (st.depth + 1)) < maxCommands; omega)
        (by show maxRecursionDepth - (st.depth + 1) < f; omega)
      rw [hs]
      exact ⟨s, rfl, herr⟩

theorem evalSh_mono : ∀ (f : Nat) (t : STask) (st : ShSt) (r : EvRes),
    evalSh f t st = some r → evalSh (f + 1) t st = some r := by
  intro f
  induction f with
  | zero => intro t st r h; exact absurd h (by simp [evalSh])
  | succ f ih =>
    intro t st r h
    cases t with
    | run c =>
      cases c with
      | skip => exact h
      | assign v w => exact h
      | fundecl nm b => exact h
      | seq a b =>
        rw [evalSh] at h ⊢
        cases ha : evalSh f (.run a) st with
        | none => rw [ha] at h; exact absurd h (by simp)
        | some ra =>
          rw [ha] at h
          rw [ih (.run a) st ra ha]
          cases ra with
          | ok s1 =>
            simp only at h ⊢
            exact ih (.run b) s1 r h
          | abort s1 => exact h
      | ifc cnd tb eb =>
        rw [evalSh] at h ⊢
        cases ha : evalSh f (.run cnd) st with
        | none => rw [ha] at h; exact absurd h (by simp)
        | some ra =>
          rw [ha] at h
          rw [ih (.run cnd) st ra ha]
          cases ra with
          | ok s1 =>
            simp only at h ⊢
            by_cases hl : s1.last = 0
            · rw [if_pos hl] at h ⊢
              exact ih (.run tb) s1 r h
            · rw [if_neg hl] at h ⊢
              exact ih (.run eb) s1 r h
          | abort s1 => exact h
      | whileLoop u cnd b =>
        rw [evalSh] at h ⊢
        cases ha : evalSh f (.loopW u cnd b 0) { st with inLoop := st.inLoop + 1 } with
        | none => rw [ha] at h; exact absurd h (by simp)
        | some ra =>
          rw [ha] at h
          rw [ih (.loopW u cnd b 0) _ ra ha]
          cases ra with
          | ok s1 => exact h
          | abort s1 => exact h
      | forLoop v ws b =>
        rw [evalSh] at h ⊢
        cases ha : evalSh f (.loopF v b ws 0) { st with inLoop := st.inLoop + 1 } with
        | none => rw [ha] at h; exact absurd h (by simp)
        | some ra =>
          rw [ha] at h
          rw [ih (.loopF v b ws 0) _ ra ha]
          cases ra with
          | ok s1 => exact h
          | abort s1 => exact h
      | simple nm args =>
        rw [evalSh] at h ⊢
        by_cases hc : st.cmds ≥ maxCommands
        · rw [if_pos hc] at h ⊢
          exact h
        · rw [if_neg hc] at h ⊢
          cases hlk : lookupFn nm st.funcs with
          | none => rw [hlk] at h; exact h
          | some body =>
            rw [hlk] at h
            simp only at h ⊢
            by_cases hd : ({ st with cmds := st.cmds + 1 } : ShSt).depth ≥ maxRecursionDepth
            · rw [if_pos hd] at h ⊢
              exact h
            · rw [if_neg hd] at h ⊢
              cases hb : evalSh f (.run body)
                  { st with cmds := st.cmds + 1, depth := ({ st with cmds := st.cmds + 1 } : ShSt).depth + 1 } with
              | none => rw [hb] at h; exact absurd h (by simp)
              | some rb =>
                rw [hb] at h
                rw [ih (.run body) _ rb hb]
                cases rb with
                | ok s1 => exact h
                | abort s1 => exact h
    | loopW u cnd b i =>
      rw [evalSh] at h ⊢
      by_cases hi : i ≥ maxLoopIterations
      · rw [if_pos hi] at h ⊢
        exact h
      · rw [if_neg hi] at h ⊢
        cases ha : evalSh f (.run cnd) st with
        | none => rw [ha] at h; exact absurd h (by simp)
        | some ra =>
          rw [ha] at h
          rw [ih (.run cnd) st ra ha]
          cases ra with
          | ok s1 =>
            simp only at h ⊢
            by_cases hcont : (if u then s1.last ≠ 0 else s1.last = 0)
            · rw [if_pos hcont] at h ⊢
              cases hb : evalSh f (.run b) s1 with
              | none => rw [hb] at h; exact absurd h (by simp)
              | some rb =>
                rw [hb] at h
                rw [ih (.run b) s1 rb hb]
                cases rb with
                | ok s2 =>
                  simp only at h ⊢
                  exact ih (.loopW u cnd b (i + 1)) s2 r h
                | abort s2 => exact h
            · rw [if_neg hcont] at h ⊢
              exact h
          | abort s1 => exact h
    | loopF v b ws i =>
      cases ws with
      | nil => rw [evalSh] at h ⊢; exact h
      | cons w0 rest =>
        rw [evalSh] at h ⊢
        by_cases hi : i ≥ maxLoopIterations
        · rw [if_pos hi] at h ⊢
          exact h
        · rw [if_neg hi] at h ⊢
          cases hb : evalSh f (.run b) { st with vars := setVar v (expandW st w0) st.vars } with
          | none => rw [hb] at h; exact absurd h (by simp)
          | some rb =>
            rw [hb] at h
            rw [ih (.run b) _ rb hb]
            cases rb with
            | ok s1 =>
              simp only at h ⊢
              exact ih (.loopF v b rest (i + 1)) s1 r h
            | abort s1 => exact h

theorem evalSh_mono_le (f1 f2 : Nat) (h : f1 ≤ f2) (t : STask) (st : ShSt) (r : EvRes)
    (he : evalSh f1 t st = some r) : evalSh f2 t st = some r := by
  obtain ⟨k, rfl⟩ := Nat.exists_eq_add_of_le h
  clear h
  induction k with
  | zero => exact he
  | succ k ihk => exact evalSh_mono (f1 + k) t st r ihk

theorem evalSh_det (f1 f2 : Nat) (t : STask) (st : ShSt) (r1 r2 : EvRes)
    (h1 : evalSh f1 t st = some r1) (h2 : evalSh f2 t st = some r2) : r1 = r2 := by
  have h1m := evalSh_mono_le f1 (max f1 f2) (Nat.le_max_left f1 f2) t st r1 h1
  have h2m := evalSh_mono_le f2 (max f1 f2) (Nat.le_max_right f1 f2) t st r2 h2
  rw [h1m] at h2m
  cases h2m
  rfl

/-- C6: the infinite while and until loops of the protection scenarios
and every for loop over more than ten thousand words abort evaluation
with exit code one and the iteration diagnostic on stderr. -/
theorem c6_loop_budget :
    (∀ (f : Nat) (fs : FNode) (cwd : String) (env : List (String × String)), 10002 ≤ f →
      ∃ r, evalExec f whileTrueEcho (mkShell fs cwd env) = some r
        ∧ r.exitCode = 1 ∧ strIn "too many iterations" r.stderr = true)
  ∧ (∀ (f : Nat) (fs : FNode) (cwd : String) (env : List (String × String)), 10002 ≤ f →
      ∃ r, evalExec f untilFalseEcho (mkShell fs cwd env) = some r
        ∧ r.exitCode = 1 ∧ strIn "too many iterations" r.stderr = true)
  ∧ (∀ (f : Nat) (fs : FNode) (cwd : String) (env : List (String × String)) (ws : List String),
      10000 < ws.length → 10002 ≤ f →
      ∃ r, evalExec f (.forLoop "i" ws (.simple "echo" ["$i"])) (mkShell fs cwd env) = some r
        ∧ r.exitCode = 1 ∧ strIn "too many iterations" r.stderr = true) := by
  refine ⟨?_, ?_, ?_⟩
  · intro f fs cwd env hf
    obtain ⟨f, rfl⟩ : ∃ f2, f = f2 + 1 := ⟨f - 1, by omega⟩
    obtain ⟨s, hs, herr⟩ := loopW_abort "x" f 0
      { mkShell fs cwd env with inLoop := (mkShell fs cwd env).inLoop + 1 }
      (by show maxLoopIterations - 0 < f; show 10000 - 0 < f; omega)
      (by show 0 < (mkShell fs cwd env).inLoop + 1; omega) rfl
    refine ⟨⟨s.out, s.err, 1⟩, ?_, rfl, ?_⟩
    · rw [evalExec, whileTrueEcho, evalSh, hs]
    · rw [herr]
      rw [show ({ mkShell fs cwd env with inLoop := (mkShell fs cwd env).inLoop + 1 } : ShSt).err = "" from rfl,
        str_nil_append]
      show strIn "too many iterations" "too many iterations\n" = true
      decide
  · intro f fs cwd env hf
    obtain ⟨f, rfl⟩ : ∃ f2, f = f2 + 1 := ⟨f - 1, by omega⟩
    obtain ⟨s, hs, herr⟩ := loopU_abort "loop" f 0
      { mkShell fs cwd env with inLoop := (mkShell fs cwd env).inLoop + 1 }
      (by show maxLoopIterations - 0 < f; show 10000 - 0 < f; omega)
      (by show 0 < (mkShell fs cwd env).inLoop + 1; omega) rfl
    refine ⟨⟨s.out, s.err, 1⟩, ?_, rfl, ?_⟩
    · rw [evalExec, untilFalseEcho, evalSh, hs]
    · rw [herr]
      rw [show ({ mkShell fs cwd env with inLoop := (mkShell fs cwd env).inLoop + 1 } : ShSt).err = "" from rfl,
        str_nil_append]
      show strIn "too many iterations" "too many iterations\n" = true
      decide
  · intro f fs cwd env ws hws hf
    obtain ⟨f, rfl⟩ : ∃ f2, f = f2 + 1 := ⟨f - 1, by omega⟩
    have hwsne : ws ≠ [] := by
      intro h
      rw [h] at hws
      simp at hws
    obtain ⟨s, hs, herr⟩ := loopF_abort "i" "$i" ws f 0
      { mkShell fs cwd env with inLoop := (mkShell fs cwd env).inLoop + 1 }
      hwsne (by show 10000 < 0 + ws.length; omega)
      (by show maxLoopIterations - 0 < f; show 10000 - 0 < f; omega)
      (by show 0 < (mkShell fs cwd env).inLoop + 1; omega) rfl
    refine ⟨⟨s.out, s.err, 1⟩, ?_, rfl, ?_⟩
    · rw [evalExec, evalSh, hs]
    · rw [herr]
      rw [show ({ mkShell fs cwd env with inLoop := (mkShell fs cwd env).inLoop + 1 } : ShSt).err = "" from rfl,
        str_nil_append]
      show strIn "too many iterations" "too many iterations\n" = true
      decide

/-- C7: a function whose body calls itself unconditionally aborts at the
recursion budget with exit code one and a diagnostic carrying both the
function name and the depth message, while a self-recursive countdown
that stops before the limit completes with exit code zero. -/
theorem c7_recursion_budget :
    (∀ (f : Nat) (nm : String) (fs : FNode) (cwd : String) (env : List (String × String)), 103 ≤ f →
      ∃ r, evalExec f (recProg nm) (mkShell fs cwd env) = some r
        ∧ r.exitCode = 1
        ∧ r.stderr = nm ++ ": maximum recursion depth exceeded\n"
        ∧ strIn nm r.stderr = true
        ∧ strIn "maximum recursion depth exceeded" r.stderr = true)
  ∧ evalExec 500 countdownProg (mkShell .dnil "/" []) = some ⟨"", "", 0⟩ := by
  constructor
  · intro f nm fs cwd env hf
    obtain ⟨f, rfl⟩ : ∃ f2, f = f2 + 1 := ⟨f - 1, by omega⟩
    obtain ⟨f, rfl⟩ : ∃ f2, f = f2 + 1 := ⟨f - 1, by omega⟩
    have hstep : evalSh (f + 1) (.run (.fundecl nm (.simple nm []))) (mkShell fs cwd env)
        = some (.ok { mkShell fs cwd env with
            funcs := (nm, .simple nm []) :: (mkShell fs cwd env).funcs, last := 0 }) := by
      rw [evalSh]
    obtain ⟨s, hs, herr⟩ := rec_abort nm (f + 1)
      { mkShell fs cwd env with funcs := (nm, .simple nm []) :: (mkShell fs cwd env).funcs, last := 0 }
      (by
        show lookupFn nm ((nm, Cmd.simple nm []) :: (mkShell fs cwd env).funcs) = some (.simple nm [])
        rw [lookupFn, if_pos rfl])
      (by show (0 : Nat) + (maxRecursionDepth - 0) < maxCommands; decide)
      (by show maxRecursionDepth - 0 < f + 1; show 100 - 0 < f + 1; omega)
    have hrun : evalSh (f + 1 + 1) (.run (recProg nm)) (mkShell fs cwd env) = some (.abort s) := by
      rw [recProg, evalSh, hstep]
      exact hs
    refine ⟨⟨s.out, s.err, 1⟩, ?_, rfl, ?_, ?_, ?_⟩
    · rw [evalExec, hrun]
    · rw [herr]
      rw [show ({ mkShell fs cwd env with
          funcs := (nm, Cmd.simple nm []) :: (mkShell fs cwd env).funcs, last := 0 } : ShSt).err = "" from rfl]
      rw [str_nil_append]
    · rw [herr]
      rw [show ({ mkShell fs cwd env with
          funcs := (nm, Cmd.simple nm []) :: (mkShell fs cwd env).funcs, last := 0 } : ShSt).err = "" from rfl]
      rw [str_nil_append]
      exact strIn_pre nm ": maximum recursion depth exceeded\n"
    · rw [herr]
      rw [show ({ mkShell fs cwd env with
          funcs := (nm, Cmd.simple nm []) :: (mkShell fs cwd env).funcs, last := 0 } : ShSt).err = "" from rfl]
      rw [str_nil_append]
      exact strIn_append_left "maximum recursion depth exceeded" nm ": maximum recursion depth exceeded\n" (by decide)
  · rfl

/-- C9: execution is deterministic: two evaluations of one budget-safe
script on shells constructed from identical initial files, working
directory and environment yield identical stdout, stderr and exit
code. -/
theorem c9_determinism (fs : FNode) (cwd : String) (env : List (String × String)) (script : Cmd)
    (f1 f2 : Nat) (r1 r2 : ExecResult)
    (hsafe : BudgetSafe script (mkShell fs cwd env))
    (h1 : evalExec f1 script (mkShell fs cwd env) = some r1)
    (h2 : evalExec f2 script (mkShell fs cwd env) = some r2) :
    r1 = r2 ∧ r1.stdout = r2.stdout ∧ r1.stderr = r2.stderr ∧ r1.exitCode = r2.exitCode := by
  have hmain : r1 = r2 := by
    rw [evalExec] at h1 h2
    cases q1 : evalSh f1 (.run script) (mkShell fs cwd env) with
    | none => rw [q1] at h1; exact absurd h1 (by simp)
    | some e1 =>
      cases q2 : evalSh f2 (.run script) (mkShell fs cwd env) with
      | none => rw [q2] at h2; exact absurd h2 (by simp)
      | some e2 =>
        rw [q1] at h1
        rw [q2] at h2
        have he : e1 = e2 := evalSh_det f1 f2 (.run script) (mkShell fs cwd env) e1 e2 q1 q2
        rw [he] at h1
        cases e2 with
        | ok s =>
          simp only [Option.some.injEq] at h1 h2
          rw [← h1, ← h2]
        | abort s =>
          simp only [Option.some.injEq] at h1 h2
          rw [← h1, ← h2]
  exact ⟨hmain, by rw [hmain], by rw [hmain], by rw [hmain]⟩

/-- C10: stat invocations without a help flag and without an operand
return exactly the missing-operand error with exit code one for every
filesystem oracle, and dash arguments other than the format option are
silently ignored by the argument loop. -/
theorem c10_stat_missing_operand :
    (∀ (statFn : String → Option SInfo) (resolve : String → String → String) (cwd : String) (args : List String),
      helpIn args = false → (statParse args none).2 = [] →
      statExecute statFn resolve cwd args = ⟨"", "stat: missing operand\n", 1⟩)
  ∧ (∀ (a : String) (rest : List String) (fmt : Option String),
      headIs '-' a = true → a ≠ "-c" → statParse (a :: rest) fmt = statParse rest fmt) := by
  constructor
  · intro statFn resolve cwd args hh hp
    rw [statExecute, hh]
    simp only [Bool.false_eq_true, if_false, hp]
  · intro a rest fmt hdash hne
    rw [statParse.eq_def]
    split
    · simp_all
    · simp_all
    · simp_all
    · rename_i heq
      injection heq with h1 h2
      subst h1
      subst h2
      rw [if_pos hdash]

/-! Witnesses instantiating the claims on concrete inputs. -/

theorem c1_find_no_predicates_witness :
    findCmd projFS "/project" ["/project"]
      = ⟨strConcat ((["/project"]).map fun p =>
            strConcat ((pathRecs projFS "/project" none p).map (fun rec => rec.disp ++ "\n"))), "", 0⟩
  ∧ ∀ p ∈ ["/project"], ∀ rec ∈ pathRecs projFS "/project" none p,
      statAt (resolveComps "/project" p ++ rec.rel) projFS = some rec.node :=
  c1_find_no_predicates projFS "/project" ["/project"]
    (by decide) (by decide) (by decide) (by decide) (by decide)

theorem c2_find_name_witness :
    findCmd projFS "/project" (["/project"] ++ ["-name", "*.ts"])
      = ⟨strConcat ((["/project"]).map fun p =>
            strConcat ((pathRecs projFS "/project" none p).map
              (fun rec => if globMatches "*.ts" rec.name then rec.disp ++ "\n" else ""))), "", 0⟩
  ∧ ∀ p ∈ ["/project"], ∀ rec ∈ (pathRecs projFS "/project" none p).tail,
      ∃ q, rec.disp = q ++ "/" ++ rec.name :=
  c2_find_name projFS "/project" ["/project"] "*.ts"
    (by decide) (by decide) (by decide) (by decide) (by decide) (by decide)

theorem c3_precedence_witness :
    parseFind ["-type", "f", "-name", "*.md", "-o", "-type", "f", "-name", "*.json"]
      = .ok (.or (.and (.typ true) (.name "*.md")) (.and (.typ true) (.name "*.json")))
  ∧ parseFind ["!", "-name", "*.md", "-a", "-type", "f", "-o", "-type", "d"]
      = .ok (.or (.and (.not (.name "*.md")) (.typ true)) (.typ false))
  ∧ parseFind ["-name", "*.md", "-a", "(", "-name", "*.md", "-o", "-name", "*.json", ")"]
      = .ok (.and (.name "*.md") (.or (.name "*.md") (.name "*.json")))
  ∧ findCmd projFS "/" ["/project", "-type", "f", "-name", "*.md", "-o", "-type", "f", "-name", "*.json"]
      = findCmd projFS "/" ["/project", "(", "-type", "f", "-name", "*.md", ")", "-o", "(", "-type", "f", "-name", "*.json", ")"] :=
  c3_precedence projFS "/" "/project" "*.md" "*.json" (by decide) (by decide) (by decide) (by decide)

theorem c4_missing_paths_witness :
    ((findCmd (.dcons "dir1" (.dcons "a.txt" (.file "a") .dnil) .dnil) "/"
        (["/dir1", "/nonexistent"] ++ ["-type", "f"])).exitCode = 1)
  ∧ ((findCmd (.dcons "dir1" (.dcons "a.txt" (.file "a") .dnil) .dnil) "/"
        (["/dir1", "/nonexistent"] ++ ["-type", "f"])).stderr
      = strConcat ((["/dir1", "/nonexistent"]).map fun p =>
          (pathZ (.dcons "dir1" (.dcons "a.txt" (.file "a") .dnil) .dnil) "/" (.typ true) p).err))
  ∧ ((findCmd (.dcons "dir1" (.dcons "a.txt" (.file "a") .dnil) .dnil) "/"
        (["/dir1", "/nonexistent"] ++ ["-type", "f"])).stdout
      = strConcat ((["/dir1", "/nonexistent"]).map fun p =>
          (pathZ (.dcons "dir1" (.dcons "a.txt" (.file "a") .dnil) .dnil) "/" (.typ true) p).out))
  ∧ (∀ p, statAt (resolveComps "/" p) (.dcons "dir1" (.dcons "a.txt" (.file "a") .dnil) .dnil) = none →
      pathZ (.dcons "dir1" (.dcons "a.txt" (.file "a") .dnil) .dnil) "/" (.typ true) p
        = ⟨"", pathFailLine p, 1⟩)
  ∧ ((findCmd (.dcons "dir1" (.dcons "a.txt" (.file "a") .dnil) .dnil) "/"
        (["/dir1", "/nonexistent"] ++ ["-type", "f"])).exitCode
      = (["/dir1", "/nonexistent"]).foldl
          (fun a p => max a (pathZ (.dcons "dir1" (.dcons "a.txt" (.file "a") .dnil) .dnil) "/" (.typ true) p).ec) 0) :=
  c4_missing_paths (.dcons "dir1" (.dcons "a.txt" (.file "a") .dnil) .dnil) "/"
    ["/dir1", "/nonexistent"] ["-type", "f"] (.typ true)
    (by decide) (by decide) (by decide)
    (fun t ht => by cases ht; decide) (by decide) rfl (by decide)

theorem c5_unknown_predicate_witness :
    findCmd projFS "/project" (["/project"] ++ ["-unknown"])
      = ⟨"", "find: " ++ ("unknown predicate \x27" ++ "-unknown" ++ "\x27") ++ "\n", 1⟩ :=
  c5_unknown_predicate projFS "/project" ["/project"] "-unknown"
    (by decide) (by decide) (by decide) (by decide)

theorem c6_loop_budget_witness :
    (∃ r, evalExec 10002 whileTrueEcho (mkShell .dnil "/" []) = some r
      ∧ r.exitCode = 1 ∧ strIn "too many iterations" r.stderr = true)
  ∧ (∃ r, evalExec 10002 untilFalseEcho (mkShell .dnil "/" []) = some r
      ∧ r.exitCode = 1 ∧ strIn "too many iterations" r.stderr = true)
  ∧ (∃ r, evalExec 10002 (.forLoop "i" (List.replicate 10001 "x") (.simple "echo" ["$i"])) (mkShell .dnil "/" []) = some r
      ∧ r.exitCode = 1 ∧ strIn "too many iterations" r.stderr = true) :=
  ⟨c6_loop_budget.1 10002 .dnil "/" [] (by decide),
   c6_loop_budget.2.1 10002 .dnil "/" [] (by decide),
   c6_loop_budget.2.2 10002 .dnil "/" [] (List.replicate 10001 "x")
     (by rw [List.length_replicate]; decide) (by decide)⟩

theorem c7_recursion_budget_witness :
    ∃ r, evalExec 103 (recProg "recurse") (mkShell .dnil "/" []) = some r
      ∧ r.exitCode = 1
      ∧ r.stderr = "recurse" ++ ": maximum recursion depth exceeded\n"
      ∧ strIn "recurse" r.stderr = true
      ∧ strIn "maximum recursion depth exceeded" r.stderr = true :=
  c7_recursion_budget.1 103 "recurse" .dnil "/" [] (by decide)

theorem c8_emission_witness :
    findCmd projFS "/project" (["/project"] ++ ["-type", "d"])
      = ⟨strConcat ((["/project"]).map fun p =>
            strConcat ((pathRecs projFS "/project" (maxdOf (.typ false)) p).map
              (fun rec => if truthOf projFS "/project" (.typ false) rec.name rec.disp rec.node
                then rec.disp ++ "\n" else ""))), "", 0⟩ :=
  c8_emission projFS "/project" ["/project"] ["-type", "d"] (.typ false)
    (by decide) (by decide) (by decide) (by decide)
    (fun t ht => by cases ht; decide) (by decide) rfl rfl (by decide)

theorem c9_determinism_witness :
    ((⟨"hi\n", "", 0⟩ : ExecResult) = ⟨"hi\n", "", 0⟩)
  ∧ (⟨"hi\n", "", 0⟩ : ExecResult).stdout = (⟨"hi\n", "", 0⟩ : ExecResult).stdout
  ∧ (⟨"hi\n", "", 0⟩ : ExecResult).stderr = (⟨"hi\n", "", 0⟩ : ExecResult).stderr
  ∧ (⟨"hi\n", "", 0⟩ : ExecResult).exitCode = (⟨"hi\n", "", 0⟩ : ExecResult).exitCode :=
  c9_determinism .dnil "/" [] (.simple "echo" ["hi"]) 5 7 ⟨"hi\n", "", 0⟩ ⟨"hi\n", "", 0⟩
    ⟨2, _, rfl⟩ rfl rfl

theorem c10_stat_missing_operand_witness :
    (statExecute (fun _ => none) (fun _ p => p) "/" ["-x", "-c", "FMT", "--verbose"]
      = ⟨"", "stat: missing operand\n", 1⟩)
  ∧ statParse ("-x" :: ["a.txt"]) none = statParse ["a.txt"] none :=
  ⟨c10_stat_missing_operand.1 (fun _ => none) (fun _ p => p) "/" ["-x", "-c", "FMT", "--verbose"]
      (by decide) (by decide),
   c10_stat_missing_operand.2 "-x" ["a.txt"] none (by decide) (by decide)⟩

end JB
